import Mathlib

/-!
# Verification of the duplicate-file detection and resolution engine

A shallow embedding of `separate_same_size_files.py`: the inventory scanner,
size bucketer, fingerprint engine, union-find based equivalence resolver,
retention policy and disposal executor, together with proofs and refutations
of the specified properties.

Modelling conventions:
* Paths are modelled as normalized absolute path strings, so `os.path.abspath`
  is the identity.  All path computations are carried out on the underlying
  character list (`String.data`), with `'/'` as `os.sep`.
* The MD5 accumulator is modelled as the exact byte sequence fed to it
  (a collision-free digest abstraction, matching the spec's assumption that
  equal fingerprints imply equal content).
* The mutable `parent` array of the union-find structure is modelled as a
  total function `Nat → Nat` that is the identity outside the bucket range;
  the recursive `find` with path compression is modelled with explicit fuel
  (the recursion depth of the Python `find` is at most the chain length,
  which is below the bucket size for a parent forest).
-/

namespace DupSpec

/-! ## Definitions (translated from the source) -/

/-- Iterate the parent function `k` times (follow `k` parent links). -/
def iterp (p : Nat → Nat) : Nat → Nat → Nat
  | 0, x => x
  | k+1, x => iterp p k (p x)

/-- `x` is a root of the parent forest: `parent[x] == x`. -/
def IsRoot (p : Nat → Nat) (x : Nat) : Prop := p x = x

instance (p : Nat → Nat) (x : Nat) : Decidable (IsRoot p x) :=
  inferInstanceAs (Decidable (p x = x))

/-- `r` is the root of `x`: reachable along parent links and a fixpoint. -/
def RootOf (p : Nat → Nat) (x r : Nat) : Prop :=
  (∃ k, iterp p k x = r) ∧ IsRoot p r

/-- `x` and `y` lie in the same tree of the parent forest. -/
def SameRoot (p : Nat → Nat) (x y : Nat) : Prop :=
  ∃ r, RootOf p x r ∧ RootOf p y r

/-- Invariant of the union-find state over a bucket of `n` records:
indices below `n` stay below `n`, indices outside the bucket are untouched
fixpoints, and every chain reaches a root (the parent graph is a forest). -/
def Good (n : Nat) (p : Nat → Nat) : Prop :=
  (∀ x, x < n → p x < n) ∧ (∀ x, n ≤ x → p x = x) ∧ (∀ x, ∃ r, RootOf p x r)

/-- `parent[a] = v` on the functional representation of the parent array. -/
def upd (p : Nat → Nat) (a v : Nat) : Nat → Nat :=
  fun y => if y = a then v else p y

/-- The recursive `find` of the source, with path compression, on the
functional parent representation; `fuel` bounds the recursion depth (the
callers pass the bucket size `n`, which suffices for a parent forest). -/
def findCU : Nat → (Nat → Nat) → Nat → (Nat → Nat) × Nat
  | 0, p, x => (p, p x)
  | fuel+1, p, x =>
    if p x = x then (p, x)
    else
      let res := findCU fuel p (p x)
      (upd res.1 x res.2, res.2)

/-- `parent[ry] = rx` when the two roots differ (the body of `union`). -/
def linkRoots (p2 : Nat → Nat) (rx ry : Nat) : Nat → Nat :=
  if rx ≠ ry then upd p2 ry rx else p2

/-- The `union(x, y)` of the source: find both roots (threading the
path-compressed parent state) and, when they differ, link the root of `y`
under the root of `x`. -/
def union (n : Nat) (p : Nat → Nat) (x y : Nat) : Nat → Nat :=
  linkRoots (findCU n (findCU n p x).1 y).1 (findCU n p x).2
    (findCU n (findCU n p x).1 y).2

/-- Reflexive-symmetric-transitive closure of a relation (the connectivity
generated by a set of merge edges). -/
inductive Join {α : Type} (r : α → α → Prop) : α → α → Prop
  | base {a b : α} : r a b → Join r a b
  | refl (a : α) : Join r a a
  | symm {a b : α} : Join r a b → Join r b a
  | trans {a b c : α} : Join r a b → Join r b c → Join r a c

/-- One step of the comparison loop: merge the pair when it matches. -/
def stepPair (n : Nat) (m : Nat → Nat → Bool) (p : Nat → Nat)
    (pr : Nat × Nat) : Nat → Nat :=
  if m pr.1 pr.2 then union n p pr.1 pr.2 else p

/-- The `for i / for j` double loop of the source, folded over the list of
index pairs. -/
def runPairs (n : Nat) (m : Nat → Nat → Bool) (ps : List (Nat × Nat))
    (p : Nat → Nat) : Nat → Nat :=
  ps.foldl (stepPair n m) p

/-- The matching edges contributed by a list of candidate pairs. -/
def edges (m : Nat → Nat → Bool) (ps : List (Nat × Nat)) (a b : Nat) : Prop :=
  ∃ pr ∈ ps, m pr.1 pr.2 = true ∧ ((a, b) = pr ∨ (b, a) = pr)

/-- The index pairs `(i, j)` for `i in range(n)`, `j in range(i+1, n)`. -/
def allPairs (n : Nat) : List (Nat × Nat) :=
  (List.range n).flatMap (fun i =>
    (List.range' (i + 1) (n - (i + 1))).map (fun j => (i, j)))

/-- The union-find state after the complete pairwise comparison loop of one
bucket, starting from `parent = list(range(n))`. -/
def bucketUF (n : Nat) (m : Nat → Nat → Bool) : Nat → Nat :=
  runPairs n m (allPairs n) (fun x => x)

/-- A direct merge edge between two distinct in-range indices whose records
match (same fingerprint or same basename). -/
def MatchEdge (n : Nat) (m : Nat → Nat → Bool) (u v : Nat) : Prop :=
  u < n ∧ v < n ∧ u ≠ v ∧ m u v = true

/-- `groups.setdefault(r, []).append(s)` on an insertion-ordered association
list. -/
def assocAppend (A : List (Nat × List String)) (r : Nat) (s : String) :
    List (Nat × List String) :=
  match A with
  | [] => [(r, [s])]
  | kl :: rest =>
      if kl.1 = r then (kl.1, kl.2 ++ [s]) :: rest
      else kl :: assocAppend rest r s

/-- The canonical representative returned by `find(i)` (roots are stable, so
any later `find` returns the same value). -/
def rootD (n : Nat) (p : Nat → Nat) (i : Nat) : Nat := (findCU n p i).2

/-- The final grouping loop of the source: `for i in range(n): root = find(i);
groups.setdefault(root, []).append(paths[i])`, threading the path-compressed
parent state. -/
def groupAssoc (n : Nat) (p0 : Nat → Nat) (pathOf : Nat → String) :
    (Nat → Nat) × List (Nat × List String) :=
  (List.range n).foldl
    (fun st i =>
      ((findCU n st.1 i).1, assocAppend st.2 (findCU n st.1 i).2 (pathOf i)))
    (p0, [])

/-- The grouping loop with the key function evaluated up front (the pure
counterpart used in proofs). -/
def keyFold (key : Nat → Nat) (val : Nat → String) (l : List Nat) :
    List (Nat × List String) :=
  l.foldl (fun A i => assocAppend A (key i) (val i)) []

/-- A regular file as seen by the pipeline: its (normalized absolute) path,
the byte size reported by `os.path.getsize`, the chunks successfully
returned by reads of its content, and whether opening/reading raises after
those chunks (`compute_md5`'s `except` branch). -/
structure FRecord where
  path : String
  size : Nat
  chunks : List (List Nat)
  readErr : Bool
deriving DecidableEq

/-- Default record (for out-of-range index access only). -/
def dfltRec : FRecord := ⟨"", 0, [], false⟩

/-- `compute_md5` of the source: the digest is modelled as the byte sequence
fed to the hash accumulator.  The `except` branch only prints: the digest of
whatever was read before the error is returned all the same, so a file that
cannot be opened yields the digest of the empty byte sequence. -/
def compute_md5 (r : FRecord) : List Nat := r.chunks.flatten

/-- `os.path.basename`: the characters after the last `'/'`. -/
def basename (s : String) : String :=
  ⟨(s.data.reverse.takeWhile (fun c => c ≠ '/')).reverse⟩

/-- The merge condition of the resolver: same MD5 digest or same basename
(`file_info[i][0] == file_info[j][0] or file_info[i][1] == file_info[j][1]`). -/
def matchRec (a b : FRecord) : Bool :=
  decide (compute_md5 a = compute_md5 b) || decide (basename a.path = basename b.path)

/-- The same merge condition on bucket indices. -/
def matchIdx (rs : List FRecord) (i j : Nat) : Bool :=
  matchRec (rs.getD i dfltRec) (rs.getD j dfltRec)

/-- The per-bucket work of `find_duplicates_by_size_and_hash`: union-find over
the bucket's indices, grouping by representative, and keeping the groups with
more than one member. -/
def processBucket (rs : List FRecord) : List (List String) :=
  ((groupAssoc rs.length (bucketUF rs.length (matchIdx rs))
      (fun i => (rs.getD i dfltRec).path)).2.map Prod.snd).filter
    (fun g => decide (1 < g.length))

/-- The keys of `size_dict` in first-insertion order (Python dicts preserve
insertion order). -/
def sizeKeys (files : List FRecord) : List Nat :=
  files.foldl (fun ks r => if r.size ∈ ks then ks else ks ++ [r.size]) []

/-- `find_duplicates_by_size_and_hash`, from the scanned inventory on:
bucket the records by size, skip buckets with fewer than two members, and
emit each bucket's duplicate groups (as lists of paths). -/
def find_duplicates (files : List FRecord) : List (List String) :=
  (sizeKeys files).flatMap (fun s =>
    let paths := files.filter (fun r => decide (r.size = s))
    if paths.length < 2 then [] else processBucket paths)

/-- `is_in_directory` of the source: normalize (under the conventions above,
paths are already normalized absolute), append a trailing separator to the
directory when it lacks one (`os.path.join(directory, '')`), and test the
string prefix. -/
def is_in_directory (file_path directory : String) : Bool :=
  let directory_with_sep :=
    if directory.data.getLastD ' ' = '/' then directory else directory ++ "/"
  directory_with_sep.data.isPrefixOf file_path.data

/-- `get_depth`: the number of `os.sep` occurrences in the absolute path. -/
def get_depth (fp : String) : Nat :=
  (fp.data.filter (fun c => decide (c = '/'))).length

/-- Python's `max(group, key=get_depth)`: the first element attaining the
maximum key (later elements replace the champion only on strictly greater
key).  `none` on the empty list, where the Python call would raise. -/
def maxByDepth : List String → Option String
  | [] => none
  | h :: t =>
      some (t.foldl (fun best x => if get_depth best < get_depth x then x else best) h)

/-- The per-group retention decision of `handle_duplicates`: the list of
files to trash.  With a keep-directory, members inside it are immune and the
rest are trashed when any member is immune; otherwise (and without a
keep-directory) all but the deepest member are trashed. -/
def handle_one (keep_directory : Option String) (group : List String) :
    List String :=
  match keep_directory with
  | some kd =>
      let immune := group.filter (fun f => is_in_directory f kd)
      if immune.isEmpty then
        match maxByDepth group with
        | some keep_file => group.filter (fun f => f != keep_file)
        | none => []
      else
        group.filter (fun f => !(immune.contains f))
  | none =>
      match maxByDepth group with
      | some keep_file => group.filter (fun f => f != keep_file)
      | none => []

/-- The disposal loop of `handle_duplicates`.  `trashOk` models whether the
`send2trash` call succeeds for a path; the result is the ordered log of
`send2trash` invocations together with `total_trashed` (the count of
successful moves; a failure is printed and the loop continues). -/
def handle_duplicates (trashOk : String → Bool)
    (duplicate_groups : List (List String)) (keep_directory : Option String) :
    List String × Nat :=
  duplicate_groups.foldl
    (fun st group =>
      (handle_one keep_directory group).foldl
        (fun st2 fp => (st2.1 ++ [fp], if trashOk fp then st2.2 + 1 else st2.2))
        st)
    ([], 0)

/-- What a directory entry can be on disk. -/
inductive EntryKind
  | regular
  | directory
  | symlinkToFile
  | symlinkToDir
  | symlinkBroken
deriving DecidableEq

/-- A directory entry as visited by the scan: its path, what it is, and the
result of `os.path.getsize` (`none` models the call raising). -/
structure Entry where
  path : String
  kind : EntryKind
  sizeRes : Option Nat
deriving DecidableEq

/-- `os.path.isfile` follows symbolic links: true for a regular file and for
a symlink that resolves to a regular file; false for directories, symlinks
to directories and broken symlinks. -/
def isfile (e : Entry) : Bool :=
  match e.kind with
  | EntryKind.regular => true
  | EntryKind.symlinkToFile => true
  | _ => false

/-- The per-entry inventory filter of the scan loops (lines 49–71 of the
source, identical in the recursive and non-recursive branches): keep an
entry when `os.path.isfile` holds and `os.path.getsize` succeeds; on a size
error print a warning and `continue`. -/
def scanInventory (entries : List Entry) : List (String × Nat) :=
  entries.flatMap (fun e =>
    if isfile e then
      match e.sizeRes with
      | some sz => [(e.path, sz)]
      | none => []
    else [])

/-- All paths the retention policy marks for disposal in one run. -/
def allDiscards (files : List FRecord) (kd : Option String) : List String :=
  (find_duplicates files).flatMap (handle_one kd)

/-- The tree after a run in which every discard was successfully moved to
trash: exactly the records whose paths were not discarded remain. -/
def survivorsFS (files : List FRecord) (kd : Option String) : List FRecord :=
  files.filter (fun r => !((allDiscards files kd).contains r.path))

/-- Record-level match: same content digest or same basename. -/
def MatchR (a b : FRecord) : Prop :=
  compute_md5 a = compute_md5 b ∨ basename a.path = basename b.path

instance (a b : FRecord) : Decidable (MatchR a b) :=
  inferInstanceAs
    (Decidable (compute_md5 a = compute_md5 b ∨ basename a.path = basename b.path))

/-- Record-level connectivity inside a bucket: the closure of pairwise
matches between distinct members. -/
def ConnR (B : List FRecord) (a b : FRecord) : Prop :=
  Join (fun u v => u ∈ B ∧ v ∈ B ∧ u ≠ v ∧ MatchR u v) a b

/-- The canonical representative of a bucket index after the comparison
loop. -/
def bucketRoot (rs : List FRecord) (i : Nat) : Nat :=
  rootD rs.length (bucketUF rs.length (matchIdx rs)) i

/-- The paths of the bucket members whose representative is `r`, in bucket
order. -/
def classList (rs : List FRecord) (r : Nat) : List String :=
  ((List.range rs.length).filter (fun i => decide (bucketRoot rs i = r))).map
    (fun i => (rs.getD i dfltRec).path)

/-- The folded step of `max(..., key=get_depth)`: replace the champion only
on strictly greater depth. -/
def pickDeeper (best x : String) : String :=
  if get_depth best < get_depth x then x else best

/-! ## Theorems -/

theorem iterp_add (p : Nat → Nat) (k j x : Nat) :
    iterp p (k + j) x = iterp p j (iterp p k x) := by
  induction k generalizing x with
  | zero => simp [iterp]
  | succ k ih =>
      have h1 : k + 1 + j = (k + j) + 1 := by omega
      rw [h1]
      show iterp p (k + j) (p x) = iterp p j (iterp p k (p x))
      exact ih (p x)

theorem iterp_isRoot (p : Nat → Nat) {r : Nat} (h : IsRoot p r) :
    ∀ k, iterp p k r = r := by
  intro k
  induction k with
  | zero => rfl
  | succ k ih =>
      show iterp p k (p r) = r
      rw [h]
      exact ih

theorem rootOf_unique {p : Nat → Nat} {x r s : Nat}
    (h1 : RootOf p x r) (h2 : RootOf p x s) : r = s := by
  obtain ⟨⟨k1, hk1⟩, hr⟩ := h1
  obtain ⟨⟨k2, hk2⟩, hs⟩ := h2
  rcases Nat.le_total k1 k2 with h | h
  · have : iterp p k2 x = r := by
      have h2 : k2 = k1 + (k2 - k1) := by omega
      rw [h2, iterp_add, hk1, iterp_isRoot p hr]
    rw [hk2] at this
    exact this.symm
  · have : iterp p k1 x = s := by
      have : k1 = k2 + (k1 - k2) := by omega
      rw [this, iterp_add, hk2, iterp_isRoot p hs]
    rw [hk1] at this
    exact this

theorem rootOf_self {p : Nat → Nat} {x : Nat} (h : IsRoot p x) : RootOf p x x :=
  ⟨⟨0, rfl⟩, h⟩

theorem rootOf_step {p : Nat → Nat} {x r : Nat} :
    RootOf p (p x) r ↔ RootOf p x r := by
  constructor
  · rintro ⟨⟨k, hk⟩, hr⟩
    exact ⟨⟨k + 1, by show iterp p k (p x) = r; exact hk⟩, hr⟩
  · rintro ⟨⟨k, hk⟩, hr⟩
    cases k with
    | zero =>
        have hx : x = r := hk
        subst hx
        exact ⟨⟨0, hr⟩, hr⟩
    | succ k =>
        exact ⟨⟨k, hk⟩, hr⟩

theorem rootOf_root {p : Nat → Nat} {x r : Nat} (h : RootOf p x r) :
    RootOf p r r := rootOf_self h.2

theorem good_id (n : Nat) : Good n (fun x => x) :=
  ⟨fun _ h => h, fun _ _ => rfl, fun x => ⟨x, rootOf_self rfl⟩⟩

theorem iterp_lt {n : Nat} {p : Nat → Nat} (hg : Good n p) {x : Nat}
    (hx : x < n) : ∀ k, iterp p k x < n := by
  intro k
  induction k generalizing x with
  | zero => exact hx
  | succ k ih =>
      show iterp p k (p x) < n
      exact ih (hg.1 x hx)

theorem sameRoot_refl {n : Nat} {p : Nat → Nat} (hg : Good n p) (x : Nat) :
    SameRoot p x x := by
  obtain ⟨r, hr⟩ := hg.2.2 x
  exact ⟨r, hr, hr⟩

theorem sameRoot_symm {p : Nat → Nat} {x y : Nat} (h : SameRoot p x y) :
    SameRoot p y x := by
  obtain ⟨r, h1, h2⟩ := h
  exact ⟨r, h2, h1⟩

theorem sameRoot_trans {p : Nat → Nat} {x y z : Nat}
    (h1 : SameRoot p x y) (h2 : SameRoot p y z) : SameRoot p x z := by
  obtain ⟨r, hx, hy⟩ := h1
  obtain ⟨s, hy', hz⟩ := h2
  have : r = s := rootOf_unique hy hy'
  subst this
  exact ⟨r, hx, hz⟩

theorem sameRoot_iff_eq {p : Nat → Nat} {a b ra rb : Nat}
    (ha : RootOf p a ra) (hb : RootOf p b rb) :
    SameRoot p a b ↔ ra = rb := by
  constructor
  · rintro ⟨s, h1, h2⟩
    rw [rootOf_unique ha h1, rootOf_unique hb h2]
  · intro h
    subst h
    exact ⟨ra, ha, hb⟩

/-- In a parent forest over `n` nodes, the root of any in-range node is
reached in fewer than `n` steps (the nodes of a shortest chain are distinct). -/
theorem rootOf_dist_lt {n : Nat} {p : Nat → Nat} (hg : Good n p) {x : Nat}
    (hx : x < n) : ∃ k, k < n ∧ IsRoot p (iterp p k x) := by
  have hex : ∃ k, IsRoot p (iterp p k x) := by
    obtain ⟨r, ⟨⟨k, hk⟩, hr⟩⟩ := hg.2.2 x
    exact ⟨k, by rw [hk]; exact hr⟩
  set k0 := Nat.find hex with hk0
  refine ⟨k0, ?_, Nat.find_spec hex⟩
  by_contra hn
  push_neg at hn
  -- pigeonhole: the first `k0 + 1` chain nodes all lie below `n < k0 + 1`
  have hmaps : ∀ i ∈ Finset.range (k0 + 1),
      iterp p i x ∈ Finset.range n := by
    intro i _
    exact Finset.mem_range.mpr (iterp_lt hg hx i)
  have hcard : (Finset.range n).card < (Finset.range (k0 + 1)).card := by
    simp only [Finset.card_range]
    omega
  obtain ⟨i0, hi0, j0, hj0, hij0, heq0⟩ :=
    Finset.exists_ne_map_eq_of_card_lt_of_maps_to hcard hmaps
  -- a repeat at `i < j ≤ k0` lets us cut `j - i` steps off the chain,
  -- contradicting the minimality of `k0`
  have main : ∀ i j, j < k0 + 1 → i < j → iterp p i x = iterp p j x → False := by
    intro i j hj hlt heq
    have key : ∀ s, iterp p (i + s) x = iterp p (j + s) x := by
      intro s
      rw [iterp_add, iterp_add, heq]
    have hcut : iterp p (k0 - (j - i)) x = iterp p k0 x := by
      have h1 : k0 - (j - i) = i + (k0 - j) := by omega
      have h2 : j + (k0 - j) = k0 := by omega
      rw [h1, key (k0 - j), h2]
    have hroot : IsRoot p (iterp p (k0 - (j - i)) x) := by
      rw [hcut]; exact Nat.find_spec hex
    have hlt' : k0 - (j - i) < k0 := by omega
    exact Nat.find_min hex hlt' hroot
  rcases lt_or_gt_of_ne hij0 with h | h
  · exact main i0 j0 (Finset.mem_range.mp hj0) h heq0
  · exact main j0 i0 (Finset.mem_range.mp hi0) h heq0.symm

theorem upd_eq (p : Nat → Nat) (a v : Nat) : upd p a v a = v := by
  simp [upd]

theorem upd_ne (p : Nat → Nat) {a y : Nat} (v : Nat) (h : y ≠ a) :
    upd p a v y = p y := by
  simp [upd, h]

/-- Path compression is invisible to roots: rewriting `parent[x]` to the root
of `x` changes no node's root. -/
theorem rootOf_shortcut {q : Nat → Nat} {x r : Nat} (hx : RootOf q x r) :
    ∀ y s, RootOf (upd q x r) y s ↔ RootOf q y s := by
  have hroot : IsRoot q r := hx.2
  have hroot' : IsRoot (upd q x r) r := by
    by_cases h : r = x
    · subst h
      show upd q r r r = r
      rw [upd_eq]
    · show upd q x r r = r
      rw [upd_ne q r h]
      exact hroot
  -- every chain of the updated forest maps to the same root in the original
  have aux2 : ∀ k y s, iterp (upd q x r) k y = s → IsRoot (upd q x r) s →
      RootOf q y s := by
    intro k
    induction k with
    | zero =>
        intro y s hc hs
        have hys : y = s := hc
        subst hys
        by_cases h : y = x
        · subst h
          have hry : r = y := by
            have h1 : upd q y r y = y := hs
            rw [upd_eq] at h1
            exact h1
          have := rootOf_root hx
          rw [hry] at this
          exact this
        · have h1 : upd q x r y = y := hs
          rw [upd_ne q r h] at h1
          exact rootOf_self h1
    | succ k ih =>
        intro y s hc hs
        have hstep : iterp (upd q x r) k (upd q x r y) = s := hc
        have hmid : RootOf q (upd q x r y) s := ih _ _ hstep hs
        by_cases h : y = x
        · subst h
          rw [upd_eq] at hmid
          have : s = r := rootOf_unique hmid (rootOf_root hx)
          subst this
          exact hx
        · rw [upd_ne q r h] at hmid
          exact rootOf_step.mp hmid
  -- and conversely
  have aux1 : ∀ k y s, iterp q k y = s → IsRoot q s →
      RootOf (upd q x r) y s := by
    intro k
    induction k with
    | zero =>
        intro y s hc hs
        cases hc
        by_cases h : y = x
        · subst h
          have : r = y := rootOf_unique hx (rootOf_self hs)
          subst this
          exact rootOf_self hroot'
        · refine rootOf_self ?_
          show upd q x r y = y
          rw [upd_ne q r h]
          exact hs
    | succ k ih =>
        intro y s hc hs
        have hstep : iterp q k (q y) = s := hc
        have hmid : RootOf (upd q x r) (q y) s := ih _ _ hstep hs
        by_cases h : y = x
        · subst h
          have hqy : RootOf q (q y) s := rootOf_step.mpr ⟨⟨k + 1, hc⟩, hs⟩
          have : s = r := rootOf_unique (rootOf_step.mp hqy) hx
          subst this
          refine ⟨⟨1, ?_⟩, hroot'⟩
          show upd q y s y = s
          rw [upd_eq]
        · have : RootOf (upd q x r) (upd q x r y) s := by
            rw [upd_ne q r h]
            exact hmid
          exact rootOf_step.mp this
  intro y s
  constructor
  · rintro ⟨⟨k, hk⟩, hs⟩
    exact aux2 k y s hk hs
  · rintro ⟨⟨k, hk⟩, hs⟩
    exact aux1 k y s hk hs

theorem findCU_spec : ∀ fuel (p : Nat → Nat) x k r, k < fuel →
    iterp p k x = r → IsRoot p r →
    (findCU fuel p x).2 = r ∧
    (∀ y s, RootOf (findCU fuel p x).1 y s ↔ RootOf p y s) := by
  intro fuel
  induction fuel with
  | zero => intro p x k r hk; omega
  | succ fuel ih =>
      intro p x k r hk hc hr
      by_cases hx : p x = x
      · have heq : (findCU (fuel + 1) p x) = (p, x) := by
          simp [findCU, hx]
        have hrx : r = x :=
          rootOf_unique ⟨⟨k, hc⟩, hr⟩ (rootOf_self hx)
        rw [heq, hrx]
        exact ⟨rfl, fun y s => Iff.rfl⟩
      · have heq : (findCU (fuel + 1) p x) =
            (upd (findCU fuel p (p x)).1 x (findCU fuel p (p x)).2,
             (findCU fuel p (p x)).2) := by
          simp [findCU, hx]
        cases k with
        | zero =>
            exfalso
            have : x = r := hc
            subst this
            exact hx hr
        | succ k =>
            have hc' : iterp p k (p x) = r := hc
            have hspec := ih p (p x) k r (by omega) hc' hr
            rw [heq]
            dsimp only
            refine ⟨hspec.1, ?_⟩
            intro y s
            have hxr : RootOf (findCU fuel p (p x)).1 x r := by
              rw [hspec.2]
              exact ⟨⟨k + 1, hc⟩, hr⟩
            rw [hspec.1]
            rw [rootOf_shortcut hxr]
            exact hspec.2 y s

theorem findCU_snd_lt {n : Nat} {p : Nat → Nat} (hb1 : ∀ z, z < n → p z < n) :
    ∀ fuel x, x < n → (findCU fuel p x).2 < n := by
  intro fuel
  induction fuel with
  | zero => intro x hx; exact hb1 x hx
  | succ fuel ih =>
      intro x hx
      by_cases hpx : p x = x
      · simp [findCU, hpx]; exact hx
      · simp [findCU, hpx]
        exact ih (p x) (hb1 x hx)

theorem findCU_bounds {n : Nat} {p : Nat → Nat}
    (hb1 : ∀ z, z < n → p z < n) (hb2 : ∀ z, n ≤ z → p z = z) :
    ∀ fuel x, x < n →
      (∀ z, z < n → (findCU fuel p x).1 z < n) ∧
      (∀ z, n ≤ z → (findCU fuel p x).1 z = z) := by
  intro fuel
  induction fuel with
  | zero => intro x _; exact ⟨hb1, hb2⟩
  | succ fuel ih =>
      intro x hx
      by_cases hpx : p x = x
      · simp [findCU, hpx]; exact ⟨hb1, hb2⟩
      · have ih' := ih (p x) (hb1 x hx)
        have hr := findCU_snd_lt hb1 fuel (p x) (hb1 x hx)
        simp only [findCU, hpx, if_neg, ite_false]
        constructor
        · intro z hz
          by_cases hzx : z = x
          · subst hzx
            rw [upd_eq]
            exact hr
          · rw [upd_ne _ _ hzx]
            exact ih'.1 z hz
        · intro z hz
          have hzx : z ≠ x := by omega
          rw [upd_ne _ _ hzx]
          exact ih'.2 z hz

/-- The packaged contract of `find(x)` on a well-formed bucket state:
it returns the root of `x`, changes no node's root, and preserves the
invariant. -/
theorem findCU_good {n : Nat} {p : Nat → Nat} (hg : Good n p) {x : Nat}
    (hx : x < n) :
    RootOf p x ((findCU n p x).2) ∧
    (∀ y s, RootOf (findCU n p x).1 y s ↔ RootOf p y s) ∧
    Good n (findCU n p x).1 := by
  obtain ⟨k, hk, hroot⟩ := rootOf_dist_lt hg hx
  have hspec := findCU_spec n p x k (iterp p k x) hk rfl hroot
  have hb := findCU_bounds hg.1 hg.2.1 n x hx
  refine ⟨?_, hspec.2, hb.1, hb.2, ?_⟩
  · rw [hspec.1]
    exact ⟨⟨k, rfl⟩, hroot⟩
  · intro y
    obtain ⟨r, hr⟩ := hg.2.2 y
    exact ⟨r, (hspec.2 y r).mpr hr⟩

/-- Linking one root under another: the roots of the new forest are the old
roots with `ry` renamed to `rx`. -/
theorem rootOf_link {q : Nat → Nat} {rx ry : Nat} (hrx : IsRoot q rx)
    (hry : IsRoot q ry) (hne : rx ≠ ry) :
    ∀ y s, RootOf (upd q ry rx) y s ↔
      ((RootOf q y s ∧ s ≠ ry) ∨ (RootOf q y ry ∧ s = rx)) := by
  have hrx' : IsRoot (upd q ry rx) rx := by
    show upd q ry rx rx = rx
    rw [upd_ne q rx hne]
    exact hrx
  have hlink : RootOf (upd q ry rx) ry rx := by
    refine ⟨⟨1, ?_⟩, hrx'⟩
    show upd q ry rx ry = rx
    rw [upd_eq]
  intro y s
  constructor
  · rintro ⟨⟨k, hk⟩, hs⟩
    induction k generalizing y with
    | zero =>
        have hys : y = s := hk
        subst hys
        have hyne : y ≠ ry := by
          intro h
          subst h
          have : upd q y rx y = y := hs
          rw [upd_eq] at this
          exact hne this
        have : q y = y := by
          have h1 : upd q ry rx y = y := hs
          rw [upd_ne q rx hyne] at h1
          exact h1
        exact Or.inl ⟨rootOf_self this, hyne⟩
    | succ k ih =>
        have hstep : iterp (upd q ry rx) k (upd q ry rx y) = s := hk
        have hmid := ih _ hstep
        by_cases hy : y = ry
        · rw [hy, upd_eq] at hmid
          rcases hmid with ⟨hm, hmne⟩ | ⟨hm, hms⟩
          · have hsrx : s = rx := rootOf_unique hm (rootOf_self hrx)
            refine Or.inr ⟨?_, hsrx⟩
            rw [hy]
            exact rootOf_self hry
          · exfalso
            have h2 : ry = rx := rootOf_unique hm (rootOf_self hrx)
            exact hne h2.symm
        · rw [upd_ne q rx hy] at hmid
          rcases hmid with ⟨hm, hmne⟩ | ⟨hm, hms⟩
          · exact Or.inl ⟨rootOf_step.mp hm, hmne⟩
          · exact Or.inr ⟨rootOf_step.mp hm, hms⟩
  · rintro (⟨⟨⟨k, hk⟩, hs⟩, hsne⟩ | ⟨⟨⟨k, hk⟩, hs⟩, hsrx⟩)
    · -- chains avoiding `ry` are untouched
      refine ⟨?_, ?_⟩
      · clear hrx' hlink
        induction k generalizing y with
        | zero =>
            have hys : y = s := hk
            subst hys
            exact ⟨0, rfl⟩
        | succ k ih =>
            have hyne : y ≠ ry := by
              intro h
              apply hsne
              rw [← hk, h]
              exact iterp_isRoot q hry (k + 1)
            have hstep : iterp q k (q y) = s := hk
            obtain ⟨k', hk'⟩ := ih _ hstep
            refine ⟨k' + 1, ?_⟩
            show iterp (upd q ry rx) k' (upd q ry rx y) = s
            rw [upd_ne q rx hyne]
            exact hk'
      · show upd q ry rx s = s
        rw [upd_ne q rx hsne]
        exact hs
    · rw [hsrx]
      -- chains reaching `ry` continue one step to `rx`
      have main : RootOf q y ry → RootOf (upd q ry rx) y rx := by
        intro hq
        obtain ⟨⟨k', hk'⟩, _⟩ := hq
        clear hk hs
        induction k' generalizing y with
        | zero =>
            have : y = ry := hk'
            subst this
            exact hlink
        | succ k' ih =>
            by_cases hy : y = ry
            · subst hy
              exact hlink
            · have hstep : iterp q k' (q y) = ry := hk'
              have hmid := ih _ hstep
              have : RootOf (upd q ry rx) (upd q ry rx y) rx := by
                rw [upd_ne q rx hy]
                exact hmid
              exact rootOf_step.mp this
      exact main ⟨⟨k, hk⟩, hs⟩

theorem sameRoot_congr {pA pB : Nat → Nat}
    (h : ∀ z s, RootOf pA z s ↔ RootOf pB z s) (a b : Nat) :
    SameRoot pA a b ↔ SameRoot pB a b := by
  constructor
  · rintro ⟨r, h1, h2⟩
    exact ⟨r, (h a r).mp h1, (h b r).mp h2⟩
  · rintro ⟨r, h1, h2⟩
    exact ⟨r, (h a r).mpr h1, (h b r).mpr h2⟩

/-- The contract of `union(x, y)`: the invariant is preserved, and the trees
of `x` and `y` are merged while all other root relations are untouched. -/
theorem union_good {n : Nat} {p : Nat → Nat} (hg : Good n p) {x y : Nat}
    (hx : x < n) (hy : y < n) :
    Good n (union n p x y) ∧
    ∀ a b, SameRoot (union n p x y) a b ↔
      (SameRoot p a b ∨ (SameRoot p a x ∧ SameRoot p y b) ∨
       (SameRoot p a y ∧ SameRoot p x b)) := by
  obtain ⟨hr1, hiff1, hg1⟩ := findCU_good hg hx
  obtain ⟨hr2, hiff2, hg2⟩ := findCU_good hg1 hy
  set p1 := (findCU n p x).1 with hp1def
  set rx := (findCU n p x).2 with hrxdef
  set p2 := (findCU n p1 y).1 with hp2def
  set ry := (findCU n p1 y).2 with hrydef
  have hU : union n p x y = linkRoots p2 rx ry := rfl
  have hrpx : RootOf p x rx := hr1
  have hrpy : RootOf p y ry := (hiff1 y ry).mp hr2
  have hiff : ∀ z s, RootOf p2 z s ↔ RootOf p z s :=
    fun z s => (hiff2 z s).trans (hiff1 z s)
  have hg2' : Good n p2 := hg2
  have hrxlt : rx < n := by
    obtain ⟨⟨k, hk⟩, _⟩ := hrpx
    rw [← hk]
    exact iterp_lt hg hx k
  have hrylt : ry < n := by
    obtain ⟨⟨k, hk⟩, _⟩ := hrpy
    rw [← hk]
    exact iterp_lt hg hy k
  by_cases hne : rx = ry
  · have hU2 : union n p x y = p2 := by
      rw [hU, linkRoots, if_neg]
      intro hcon
      exact hcon hne
    have hxy : SameRoot p x y := by
      refine ⟨rx, hrpx, ?_⟩
      rw [hne]
      exact hrpy
    rw [hU2]
    refine ⟨hg2', ?_⟩
    intro a b
    rw [sameRoot_congr hiff]
    constructor
    · exact fun h => Or.inl h
    · rintro (h | ⟨h1, h2⟩ | ⟨h1, h2⟩)
      · exact h
      · exact sameRoot_trans (sameRoot_trans h1 hxy) h2
      · exact sameRoot_trans (sameRoot_trans h1 (sameRoot_symm hxy)) h2
  · have hU2 : union n p x y = upd p2 ry rx := by
      rw [hU, linkRoots, if_pos hne]
    have hrootx : IsRoot p2 rx := ((hiff x rx).mpr hrpx).2
    have hrooty : IsRoot p2 ry := ((hiff2 y ry).mpr hr2).2
    have hchar := rootOf_link hrootx hrooty hne
    -- translate the link characterization to roots of the original state
    have hchar' : ∀ z s, RootOf (upd p2 ry rx) z s ↔
        ((RootOf p z s ∧ s ≠ ry) ∨ (RootOf p z ry ∧ s = rx)) := by
      intro z s
      rw [hchar z s, hiff z s, hiff z ry]
    rw [hU2]
    constructor
    · refine ⟨?_, ?_, ?_⟩
      · intro z hz
        by_cases hzy : z = ry
        · subst hzy
          rw [upd_eq]
          exact hrxlt
        · rw [upd_ne _ _ hzy]
          exact hg2'.1 z hz
      · intro z hz
        have hzy : z ≠ ry := by omega
        rw [upd_ne _ _ hzy]
        exact hg2'.2.1 z hz
      · intro z
        obtain ⟨rz, hrz⟩ := hg.2.2 z
        by_cases hzy : rz = ry
        · refine ⟨rx, (hchar' z rx).mpr (Or.inr ⟨?_, rfl⟩)⟩
          rw [← hzy]
          exact hrz
        · exact ⟨rz, (hchar' z rz).mpr (Or.inl ⟨hrz, hzy⟩)⟩
    · intro a b
      obtain ⟨ra, hra⟩ := hg.2.2 a
      obtain ⟨rb, hrb⟩ := hg.2.2 b
      have hcharA : ∀ s, RootOf (upd p2 ry rx) a s ↔
          s = (if ra = ry then rx else ra) := by
        intro s
        rw [hchar' a s]
        by_cases hcase : ra = ry
        · rw [if_pos hcase]
          constructor
          · rintro (⟨h1, h2⟩ | ⟨h1, h2⟩)
            · exact absurd ((rootOf_unique h1 hra).trans hcase) h2
            · exact h2
          · intro hs
            refine Or.inr ⟨?_, hs⟩
            rw [← hcase]
            exact hra
        · rw [if_neg hcase]
          constructor
          · rintro (⟨h1, h2⟩ | ⟨h1, h2⟩)
            · exact (rootOf_unique h1 hra)
            · exact absurd (rootOf_unique h1 hra).symm hcase
          · intro hs
            subst hs
            exact Or.inl ⟨hra, hcase⟩
      have hcharB : ∀ s, RootOf (upd p2 ry rx) b s ↔
          s = (if rb = ry then rx else rb) := by
        intro s
        rw [hchar' b s]
        by_cases hcase : rb = ry
        · rw [if_pos hcase]
          constructor
          · rintro (⟨h1, h2⟩ | ⟨h1, h2⟩)
            · exact absurd ((rootOf_unique h1 hrb).trans hcase) h2
            · exact h2
          · intro hs
            refine Or.inr ⟨?_, hs⟩
            rw [← hcase]
            exact hrb
        · rw [if_neg hcase]
          constructor
          · rintro (⟨h1, h2⟩ | ⟨h1, h2⟩)
            · exact (rootOf_unique h1 hrb)
            · exact absurd (rootOf_unique h1 hrb).symm hcase
          · intro hs
            subst hs
            exact Or.inl ⟨hrb, hcase⟩
      have hL : SameRoot (upd p2 ry rx) a b ↔
          (if ra = ry then rx else ra) = (if rb = ry then rx else rb) := by
        constructor
        · rintro ⟨s, h1, h2⟩
          rw [← (hcharA s).mp h1]
          exact (hcharB s).mp h2
        · intro h
          exact ⟨(if ra = ry then rx else ra), (hcharA _).mpr rfl,
            (hcharB _).mpr h⟩
      rw [hL, sameRoot_iff_eq hra hrb, sameRoot_iff_eq hra hrpx,
        sameRoot_iff_eq hrpy hrb, sameRoot_iff_eq hra hrpy,
        sameRoot_iff_eq hrpx hrb]
      by_cases h1 : ra = ry <;> by_cases h2 : rb = ry
      · rw [if_pos h1, if_pos h2]
        constructor
        · intro _
          exact Or.inl (h1.trans h2.symm)
        · intro _
          rfl
      · rw [if_pos h1, if_neg h2]
        constructor
        · intro hh
          exact Or.inr (Or.inr ⟨h1, hh⟩)
        · rintro (hh | ⟨hha, hhb⟩ | ⟨hha, hhb⟩)
          · exact absurd (hh.symm.trans h1) h2
          · exact absurd hhb.symm h2
          · exact hhb
      · rw [if_neg h1, if_pos h2]
        constructor
        · intro hh
          exact Or.inr (Or.inl ⟨hh, h2.symm⟩)
        · rintro (hh | ⟨hha, hhb⟩ | ⟨hha, hhb⟩)
          · exact absurd (hh.trans h2) h1
          · exact hha
          · exact absurd hha h1
      · rw [if_neg h1, if_neg h2]
        constructor
        · intro hh
          exact Or.inl hh
        · rintro (hh | ⟨hha, hhb⟩ | ⟨hha, hhb⟩)
          · exact hh
          · exact absurd hhb.symm h2
          · exact absurd hha h1

theorem Join.mono {α : Type} {r r' : α → α → Prop}
    (h : ∀ a b, r a b → Join r' a b) {a b : α} :
    Join r a b → Join r' a b := by
  intro hj
  induction hj with
  | base hr => exact h _ _ hr
  | refl a => exact Join.refl a
  | symm _ ih => exact Join.symm ih
  | trans _ _ ih1 ih2 => exact Join.trans ih1 ih2

theorem edges_nil {m : Nat → Nat → Bool} {a b : Nat} :
    ¬ edges m [] a b := by
  rintro ⟨pr, hpr, _⟩
  exact absurd hpr (List.not_mem_nil pr)

theorem edges_cons {m : Nat → Nat → Bool} {pr0 : Nat × Nat}
    {ps : List (Nat × Nat)} {a b : Nat} :
    edges m (pr0 :: ps) a b ↔
      (m pr0.1 pr0.2 = true ∧ ((a, b) = pr0 ∨ (b, a) = pr0)) ∨
        edges m ps a b := by
  constructor
  · rintro ⟨pr, hpr, hm, hab⟩
    rcases List.mem_cons.mp hpr with h | h
    · subst h
      exact Or.inl ⟨hm, hab⟩
    · exact Or.inr ⟨pr, h, hm, hab⟩
  · rintro (⟨hm, hab⟩ | ⟨pr, hpr, hm, hab⟩)
    · exact ⟨pr0, List.mem_cons_self pr0 ps, hm, hab⟩
    · exact ⟨pr, List.mem_cons_of_mem pr0 hpr, hm, hab⟩

/-- Correctness of the comparison loop: after processing a pair list starting
from a well-formed state, two indices share a root exactly when they are
connected by the prior root relation together with the matching edges of the
list.  In particular the final partition is the connectivity closure of the
merge edges, independent of processing order. -/
theorem runPairs_spec {n : Nat} {m : Nat → Nat → Bool} :
    ∀ (ps : List (Nat × Nat)) (p : Nat → Nat), Good n p →
      (∀ pr ∈ ps, pr.1 < n ∧ pr.2 < n) →
      Good n (runPairs n m ps p) ∧
      ∀ a b, SameRoot (runPairs n m ps p) a b ↔
        Join (fun u v => SameRoot p u v ∨ edges m ps u v) a b := by
  intro ps
  induction ps with
  | nil =>
      intro p hg _
      refine ⟨hg, ?_⟩
      intro a b
      constructor
      · intro h
        exact Join.base (Or.inl h)
      · intro h
        induction h with
        | base hr =>
            rcases hr with h | h
            · exact h
            · exact absurd h edges_nil
        | refl a => exact sameRoot_refl hg a
        | symm _ ih => exact sameRoot_symm ih
        | trans _ _ ih1 ih2 => exact sameRoot_trans ih1 ih2
  | cons pr0 ps ih =>
      intro p hg hps
      have hpr0 : pr0.1 < n ∧ pr0.2 < n := hps pr0 (List.mem_cons_self pr0 ps)
      have hps' : ∀ pr ∈ ps, pr.1 < n ∧ pr.2 < n :=
        fun pr hpr => hps pr (List.mem_cons_of_mem pr0 hpr)
      have hrun : runPairs n m (pr0 :: ps) p =
          runPairs n m ps (stepPair n m p pr0) := rfl
      by_cases hm : m pr0.1 pr0.2
      · -- matching pair: one union, then the rest of the loop
        have hstep : stepPair n m p pr0 = union n p pr0.1 pr0.2 := by
          rw [stepPair, if_pos hm]
        have hu := union_good hg hpr0.1 hpr0.2
        have hgu : Good n (union n p pr0.1 pr0.2) := hu.1
        obtain ⟨hg', hiff'⟩ := ih (union n p pr0.1 pr0.2) hgu hps'
        rw [hrun, hstep]
        refine ⟨hg', ?_⟩
        intro a b
        rw [hiff' a b]
        constructor
        · intro h
          refine Join.mono ?_ h
          intro u v huv
          rcases huv with huv | huv
          · -- a root relation of the post-union state unfolds to closure steps
            rcases (hu.2 u v).mp huv with h1 | ⟨h1, h2⟩ | ⟨h1, h2⟩
            · exact Join.base (Or.inl h1)
            · refine Join.trans (Join.base (Or.inl h1)) ?_
              refine Join.trans (Join.base (Or.inr ?_)) (Join.base (Or.inl h2))
              exact ⟨pr0, List.mem_cons_self pr0 ps, hm, Or.inl rfl⟩
            · refine Join.trans (Join.base (Or.inl h1)) ?_
              refine Join.trans (Join.base (Or.inr ?_)) (Join.base (Or.inl h2))
              exact ⟨pr0, List.mem_cons_self pr0 ps, hm, Or.inr rfl⟩
          · exact Join.base (Or.inr ((edges_cons).mpr (Or.inr huv)))
        · intro h
          refine Join.mono ?_ h
          intro u v huv
          rcases huv with huv | huv
          · exact Join.base (Or.inl ((hu.2 u v).mpr (Or.inl huv)))
          · rcases (edges_cons).mp huv with ⟨_, hab⟩ | hrest
            · rcases hab with hab | hab
              · have hu1 : (u, v) = pr0 := hab
                refine Join.base (Or.inl ((hu.2 u v).mpr ?_))
                refine Or.inr (Or.inl ⟨?_, ?_⟩)
                · rw [← hu1]
                  exact sameRoot_refl hg u
                · rw [← hu1]
                  exact sameRoot_refl hg v
              · have hu1 : (v, u) = pr0 := hab
                refine Join.base (Or.inl ((hu.2 u v).mpr ?_))
                refine Or.inr (Or.inr ⟨?_, ?_⟩)
                · rw [← hu1]
                  exact sameRoot_refl hg u
                · rw [← hu1]
                  exact sameRoot_refl hg v
            · exact Join.base (Or.inr hrest)
      · -- non-matching pair: the state is unchanged and the pair adds no edge
        have hstep : stepPair n m p pr0 = p := by
          rw [stepPair, if_neg hm]
        obtain ⟨hg', hiff'⟩ := ih p hg hps'
        rw [hrun, hstep]
        refine ⟨hg', ?_⟩
        intro a b
        rw [hiff' a b]
        constructor
        · intro h
          refine Join.mono ?_ h
          intro u v huv
          rcases huv with huv | huv
          · exact Join.base (Or.inl huv)
          · exact Join.base (Or.inr ((edges_cons).mpr (Or.inr huv)))
        · intro h
          refine Join.mono ?_ h
          intro u v huv
          rcases huv with huv | huv
          · exact Join.base (Or.inl huv)
          · rcases (edges_cons).mp huv with ⟨hm', _⟩ | hrest
            · exact absurd hm' (by simpa using hm)
            · exact Join.base (Or.inr hrest)

theorem mem_allPairs {n : Nat} {pr : Nat × Nat} :
    pr ∈ allPairs n ↔ pr.1 < pr.2 ∧ pr.2 < n := by
  constructor
  · intro h
    obtain ⟨i, hi, h2⟩ := List.mem_flatMap.mp h
    obtain ⟨j, hj, h3⟩ := List.mem_map.mp h2
    have hj' := List.mem_range'_1.mp hj
    subst h3
    exact ⟨by omega, by omega⟩
  · intro ⟨h1, h2⟩
    refine List.mem_flatMap.mpr ⟨pr.1, List.mem_range.mpr (by omega), ?_⟩
    refine List.mem_map.mpr ⟨pr.2, List.mem_range'_1.mpr ⟨by omega, by omega⟩, ?_⟩
    rfl

theorem bucketUF_good (n : Nat) (m : Nat → Nat → Bool) :
    Good n (bucketUF n m) := by
  have h := @runPairs_spec n m (allPairs n) (fun x => x)
    (good_id n) (fun pr hpr => by
      have := mem_allPairs.mp hpr
      exact ⟨by omega, this.2⟩)
  exact h.1

theorem sameRoot_id_iff {a b : Nat} : SameRoot (fun x => x) a b ↔ a = b := by
  constructor
  · rintro ⟨r, h1, h2⟩
    have ha : a = r :=
      rootOf_unique (rootOf_self (show IsRoot (fun x => x) a from rfl)) h1
    have hb : b = r :=
      rootOf_unique (rootOf_self (show IsRoot (fun x => x) b from rfl)) h2
    omega
  · intro h
    subst h
    exact sameRoot_refl (good_id 0) a

/-- The emitted partition of a bucket is the connectivity closure of the
pairwise match edges (for a symmetric match predicate). -/
theorem bucketUF_iff {n : Nat} {m : Nat → Nat → Bool}
    (hsym : ∀ i j, m i j = m j i) (a b : Nat) :
    SameRoot (bucketUF n m) a b ↔ Join (MatchEdge n m) a b := by
  have h := @runPairs_spec n m (allPairs n) (fun x => x)
    (good_id n) (fun pr hpr => by
      have := mem_allPairs.mp hpr
      exact ⟨by omega, this.2⟩)
  unfold bucketUF
  rw [(h.2 a b)]
  constructor
  · intro hj
    refine Join.mono ?_ hj
    intro u v huv
    rcases huv with huv | huv
    · rw [sameRoot_id_iff] at huv
      subst huv
      exact Join.refl u
    · obtain ⟨pr, hpr, hm, hab⟩ := huv
      have hmem := mem_allPairs.mp hpr
      rcases hab with hab | hab
      · subst hab
        exact Join.base ⟨by omega, by omega, by omega, hm⟩
      · have h1 : v = pr.1 := by rw [← hab]
        have h2 : u = pr.2 := by rw [← hab]
        subst h1
        subst h2
        refine Join.base ⟨by omega, by omega, by omega, ?_⟩
        rw [hsym]
        exact hm
  · intro hj
    refine Join.mono ?_ hj
    intro u v huv
    obtain ⟨hu, hv, hne, hm⟩ := huv
    rcases Nat.lt_or_ge u v with hlt | hge
    · refine Join.base (Or.inr ⟨(u, v), mem_allPairs.mpr ⟨hlt, hv⟩, hm, Or.inl rfl⟩)
    · have hlt : v < u := by omega
      refine Join.base (Or.inr ⟨(v, u), mem_allPairs.mpr ⟨hlt, hu⟩, ?_, Or.inr rfl⟩)
      rw [← hsym]
      exact hm

theorem assocAppend_keys (A : List (Nat × List String)) (r : Nat) (s : String) :
    (assocAppend A r s).map Prod.fst =
      if r ∈ A.map Prod.fst then A.map Prod.fst else A.map Prod.fst ++ [r] := by
  induction A with
  | nil => simp [assocAppend]
  | cons kl rest ih =>
      by_cases h : kl.1 = r
      · rw [assocAppend, if_pos h]
        have : r ∈ (kl :: rest).map Prod.fst := by
          rw [← h]
          exact List.mem_map_of_mem Prod.fst (List.mem_cons_self kl rest)
        rw [if_pos this]
        simp
      · rw [assocAppend, if_neg h]
        by_cases h2 : r ∈ rest.map Prod.fst
        · have hin : r ∈ (kl :: rest).map Prod.fst := by
            simp only [List.map_cons, List.mem_cons]
            exact Or.inr h2
          rw [if_pos hin]
          simp only [List.map_cons, ih, if_pos h2]
        · have hnin : r ∉ (kl :: rest).map Prod.fst := by
            simp only [List.map_cons, List.mem_cons]
            rintro (hc | hc)
            · exact h hc.symm
            · exact h2 hc
          rw [if_neg hnin]
          simp only [List.map_cons, ih, if_neg h2, List.cons_append]

theorem assocAppend_entry {A : List (Nat × List String)} {r : Nat} {s : String}
    (hnd : (A.map Prod.fst).Nodup) :
    ∀ kl ∈ assocAppend A r s,
      (kl.1 ≠ r ∧ kl ∈ A) ∨
      (kl.1 = r ∧ ((r ∉ A.map Prod.fst ∧ kl.2 = [s]) ∨
        (∃ l0, (r, l0) ∈ A ∧ kl.2 = l0 ++ [s]))) := by
  induction A with
  | nil =>
      intro kl hkl
      simp only [assocAppend, List.mem_singleton] at hkl
      subst hkl
      exact Or.inr ⟨rfl, Or.inl ⟨by simp, rfl⟩⟩
  | cons kl0 rest ih =>
      simp only [List.map_cons, List.nodup_cons] at hnd
      intro kl hkl
      by_cases h : kl0.1 = r
      · rw [assocAppend, if_pos h] at hkl
        rcases List.mem_cons.mp hkl with hk | hk
        · subst hk
          refine Or.inr ⟨h, Or.inr ⟨kl0.2, ?_, rfl⟩⟩
          rw [← h]
          exact List.mem_cons_self kl0 rest
        · have hne : kl.1 ≠ r := by
            intro hc
            apply hnd.1
            rw [h, ← hc]
            exact List.mem_map_of_mem Prod.fst hk
          exact Or.inl ⟨hne, List.mem_cons_of_mem kl0 hk⟩
      · rw [assocAppend, if_neg h] at hkl
        rcases List.mem_cons.mp hkl with hk | hk
        · subst hk
          exact Or.inl ⟨fun hc => h hc, List.mem_cons_self kl rest⟩
        · rcases ih hnd.2 kl hk with ⟨hne, hmem⟩ | ⟨heq, hrest⟩
          · exact Or.inl ⟨hne, List.mem_cons_of_mem kl0 hmem⟩
          · refine Or.inr ⟨heq, ?_⟩
            rcases hrest with ⟨hnin, hval⟩ | ⟨l0, hmem, hval⟩
            · refine Or.inl ⟨?_, hval⟩
              simp only [List.map_cons, List.mem_cons]
              rintro (hc | hc)
              · exact h hc.symm
              · exact hnin hc
            · exact Or.inr ⟨l0, List.mem_cons_of_mem kl0 hmem, hval⟩

theorem assocAppend_keys_sub {A : List (Nat × List String)} {r k : Nat}
    {s : String} (h : k ∈ A.map Prod.fst ∨ k = r) :
    k ∈ (assocAppend A r s).map Prod.fst := by
  rw [assocAppend_keys]
  by_cases hc : r ∈ A.map Prod.fst
  · rw [if_pos hc]
    rcases h with h | h
    · exact h
    · rw [h]; exact hc
  · rw [if_neg hc]
    rcases h with h | h
    · exact List.mem_append_left _ h
    · rw [h]
      exact List.mem_append_right _ (List.mem_singleton.mpr rfl)

/-- Specification of the grouping fold: keys are distinct, every processed
index is represented, and the bucket stored under each key is exactly the
ordered list of values of the indices mapping to that key. -/
theorem keyFold_spec (key : Nat → Nat) (val : Nat → String) (l : List Nat) :
    ((keyFold key val l).map Prod.fst).Nodup ∧
    (∀ i ∈ l, key i ∈ (keyFold key val l).map Prod.fst) ∧
    (∀ kl ∈ keyFold key val l,
      kl.2 = (l.filter (fun i => decide (key i = kl.1))).map val) := by
  induction l using List.reverseRecOn with
  | nil => exact ⟨List.nodup_nil, by simp, by simp [keyFold]⟩
  | append_singleton l i ih =>
      obtain ⟨ihnd, ihcov, ihval⟩ := ih
      have hfold : keyFold key val (l ++ [i]) =
          assocAppend (keyFold key val l) (key i) (val i) := by
        rw [keyFold, List.foldl_append]
        rfl
      refine ⟨?_, ?_, ?_⟩
      · rw [hfold, assocAppend_keys]
        by_cases hc : key i ∈ (keyFold key val l).map Prod.fst
        · rw [if_pos hc]
          exact ihnd
        · rw [if_neg hc]
          exact List.Nodup.append ihnd (List.nodup_singleton _)
            (by
              intro a ha hb
              rw [List.mem_singleton] at hb
              subst hb
              exact hc ha)
      · intro j hj
        rw [hfold]
        rcases List.mem_append.mp hj with hj | hj
        · exact assocAppend_keys_sub (Or.inl (ihcov j hj))
        · rw [List.mem_singleton] at hj
          subst hj
          exact assocAppend_keys_sub (Or.inr rfl)
      · intro kl hkl
        rw [hfold] at hkl
        have hfil : ∀ (c : Nat),
            (l ++ [i]).filter (fun x => decide (key x = c)) =
              l.filter (fun x => decide (key x = c)) ++
                (if key i = c then [i] else []) := by
          intro c
          rw [List.filter_append]
          congr 1
          by_cases hc : key i = c
          · simp [hc]
          · simp [hc]
        rcases assocAppend_entry ihnd kl hkl with ⟨hne, hmem⟩ | ⟨heq, hrest⟩
        · rw [hfil kl.1, if_neg (fun hc => hne hc.symm), List.append_nil]
          exact ihval kl hmem
        · rcases hrest with ⟨hnin, hval⟩ | ⟨l0, hmem, hval⟩
          · rw [hval, hfil kl.1, if_pos heq.symm]
            have : l.filter (fun x => decide (key x = kl.1)) = [] := by
              rw [List.filter_eq_nil_iff]
              intro j hj
              simp only [decide_eq_true_eq]
              intro hc
              apply hnin
              rw [← heq, ← hc]
              exact ihcov j hj
            rw [this]
            simp
          · rw [hval, hfil kl.1, if_pos heq.symm, List.map_append]
            have := ihval (key i, l0) hmem
            simp only at this
            rw [← heq] at this
            rw [← this]
            simp

theorem groupLoop_general {n : Nat} {p0 : Nat → Nat} (pathOf : Nat → String)
    (hg0 : Good n p0) :
    ∀ (l : List Nat) (q : Nat → Nat) (A : List (Nat × List String)),
      (∀ i ∈ l, i < n) → Good n q →
      (∀ z s, RootOf q z s ↔ RootOf p0 z s) →
      (l.foldl
        (fun st i =>
          ((findCU n st.1 i).1, assocAppend st.2 (findCU n st.1 i).2 (pathOf i)))
        (q, A)).2
        = l.foldl (fun A i => assocAppend A (rootD n p0 i) (pathOf i)) A := by
  intro l
  induction l with
  | nil => intro q A _ _ _; rfl
  | cons i l ih =>
      intro q A hl hq hqiff
      have hi : i < n := hl i (List.mem_cons_self i l)
      obtain ⟨hr, hiff, hgood⟩ := findCU_good hq hi
      have hkey : (findCU n q i).2 = rootD n p0 i := by
        have h1 : RootOf p0 i ((findCU n q i).2) := (hqiff i _).mp hr
        have h2 : RootOf p0 i (rootD n p0 i) := (findCU_good hg0 hi).1
        exact rootOf_unique h1 h2
      have hstep : ∀ z s, RootOf ((findCU n q i).1) z s ↔ RootOf p0 z s :=
        fun z s => (hiff z s).trans (hqiff z s)
      show (l.foldl _ ((findCU n q i).1,
          assocAppend A ((findCU n q i).2) (pathOf i))).2 = _
      rw [hkey]
      exact ih ((findCU n q i).1) _ (fun j hj => hl j (List.mem_cons_of_mem i hj))
        hgood hstep

/-- The grouping loop computes exactly the pure grouping by canonical root. -/
theorem groupAssoc_eq {n : Nat} {p0 : Nat → Nat} (pathOf : Nat → String)
    (hg : Good n p0) :
    (groupAssoc n p0 pathOf).2 =
      keyFold (rootD n p0) pathOf (List.range n) := by
  rw [groupAssoc, keyFold]
  exact groupLoop_general pathOf hg (List.range n) p0 []
    (fun i hi => List.mem_range.mp hi) hg (fun z s => Iff.rfl)

theorem matchRec_iff {a b : FRecord} : matchRec a b = true ↔ MatchR a b := by
  simp [matchRec, MatchR]

theorem matchIdx_symm (rs : List FRecord) (i j : Nat) :
    matchIdx rs i j = matchIdx rs j i := by
  simp only [matchIdx, matchRec]
  have h1 : decide (compute_md5 (rs.getD i dfltRec) = compute_md5 (rs.getD j dfltRec))
      = decide (compute_md5 (rs.getD j dfltRec) = compute_md5 (rs.getD i dfltRec)) :=
    decide_eq_decide.mpr eq_comm
  have h2 : decide (basename (rs.getD i dfltRec).path = basename (rs.getD j dfltRec).path)
      = decide (basename (rs.getD j dfltRec).path = basename (rs.getD i dfltRec).path) :=
    decide_eq_decide.mpr eq_comm
  rw [h1, h2]

theorem bucketRoot_rootOf (rs : List FRecord) {i : Nat} (hi : i < rs.length) :
    RootOf (bucketUF rs.length (matchIdx rs)) i (bucketRoot rs i) :=
  (findCU_good (bucketUF_good rs.length (matchIdx rs)) hi).1

theorem bucketRoot_eq_iff {rs : List FRecord} {i j : Nat}
    (hi : i < rs.length) (hj : j < rs.length) :
    bucketRoot rs i = bucketRoot rs j ↔
      SameRoot (bucketUF rs.length (matchIdx rs)) i j :=
  (sameRoot_iff_eq (bucketRoot_rootOf rs hi) (bucketRoot_rootOf rs hj)).symm

theorem processBucket_eq (rs : List FRecord) :
    processBucket rs =
      ((keyFold (bucketRoot rs) (fun i => (rs.getD i dfltRec).path)
        (List.range rs.length)).map Prod.snd).filter
        (fun g => decide (1 < g.length)) := by
  rw [processBucket,
    groupAssoc_eq _ (bucketUF_good rs.length (matchIdx rs))]
  rfl

theorem mem_classList {rs : List FRecord} {r : Nat} {str : String} :
    str ∈ classList rs r ↔
      ∃ i, i < rs.length ∧ bucketRoot rs i = r ∧
        (rs.getD i dfltRec).path = str := by
  rw [classList]
  constructor
  · intro h
    obtain ⟨i, hi, hstr⟩ := List.mem_map.mp h
    have hf := List.mem_filter.mp hi
    exact ⟨i, List.mem_range.mp hf.1, of_decide_eq_true hf.2, hstr⟩
  · rintro ⟨i, hi, hroot, hstr⟩
    refine List.mem_map.mpr ⟨i, ?_, hstr⟩
    exact List.mem_filter.mpr ⟨List.mem_range.mpr hi, decide_eq_true hroot⟩

/-- Every emitted group of a bucket is the path list of a whole
connectivity class, with more than one member. -/
theorem processBucket_mem {rs : List FRecord} {g : List String}
    (h : g ∈ processBucket rs) :
    1 < g.length ∧ ∃ r, g = classList rs r := by
  rw [processBucket_eq] at h
  have h2 := List.mem_filter.mp h
  obtain ⟨kl, hkl, hsnd⟩ := List.mem_map.mp h2.1
  have hspec := keyFold_spec (bucketRoot rs)
    (fun i => (rs.getD i dfltRec).path) (List.range rs.length)
  refine ⟨by simpa using h2.2, kl.1, ?_⟩
  rw [← hsnd]
  exact hspec.2.2 kl hkl

theorem two_mem_length {α : Type} {l : List α} {a b : α}
    (ha : a ∈ l) (hb : b ∈ l) (hne : a ≠ b) : 1 < l.length := by
  cases l with
  | nil => cases ha
  | cons x t =>
      cases t with
      | nil =>
          rw [List.mem_singleton] at ha hb
          exact absurd (ha.trans hb.symm) hne
      | cons y t' =>
          simp only [List.length_cons]
          omega

/-- A connectivity class with two distinct members is emitted as a group. -/
theorem processBucket_emits {rs : List FRecord} {i j : Nat}
    (hi : i < rs.length) (hj : j < rs.length) (hij : i ≠ j)
    (hsr : SameRoot (bucketUF rs.length (matchIdx rs)) i j) :
    classList rs (bucketRoot rs i) ∈ processBucket rs := by
  have hspec := keyFold_spec (bucketRoot rs)
    (fun i => (rs.getD i dfltRec).path) (List.range rs.length)
  have hcov := hspec.2.1 i (List.mem_range.mpr hi)
  obtain ⟨kl, hkl, hfst⟩ := List.mem_map.mp hcov
  have hval := hspec.2.2 kl hkl
  have hklval : kl.2 = classList rs (bucketRoot rs i) := by
    rw [hval, hfst, classList]
  rw [processBucket_eq]
  refine List.mem_filter.mpr ⟨List.mem_map.mpr ⟨kl, hkl, hklval⟩, ?_⟩
  have hroots : bucketRoot rs j = bucketRoot rs i :=
    (bucketRoot_eq_iff hj hi).mpr (sameRoot_symm hsr)
  have hmi : (rs.getD i dfltRec).path ∈ classList rs (bucketRoot rs i) :=
    mem_classList.mpr ⟨i, hi, rfl, rfl⟩
  have hmj : (rs.getD j dfltRec).path ∈ classList rs (bucketRoot rs i) :=
    mem_classList.mpr ⟨j, hj, hroots, rfl⟩
  -- the filtered index list contains both i and j, so the class has ≥ 2 entries
  have hlen : 1 < (classList rs (bucketRoot rs i)).length := by
    have hi' : i ∈ (List.range rs.length).filter
        (fun k => decide (bucketRoot rs k = bucketRoot rs i)) :=
      List.mem_filter.mpr ⟨List.mem_range.mpr hi, decide_eq_true rfl⟩
    have hj' : j ∈ (List.range rs.length).filter
        (fun k => decide (bucketRoot rs k = bucketRoot rs i)) :=
      List.mem_filter.mpr ⟨List.mem_range.mpr hj, decide_eq_true hroots⟩
    have := two_mem_length hi' hj' hij
    rw [classList, List.length_map]
    exact this
  exact decide_eq_true hlen

theorem path_ne_of_nodup {rs : List FRecord}
    (hnd : (rs.map FRecord.path).Nodup) {i j : Nat}
    (hi : i < rs.length) (hj : j < rs.length) (hij : i ≠ j) :
    (rs.getD i dfltRec).path ≠ (rs.getD j dfltRec).path := by
  rw [List.getD_eq_getElem rs dfltRec hi, List.getD_eq_getElem rs dfltRec hj]
  intro hc
  have hi' : i < (rs.map FRecord.path).length := by
    rw [List.length_map]; exact hi
  have hj' : j < (rs.map FRecord.path).length := by
    rw [List.length_map]; exact hj
  have : (rs.map FRecord.path)[i] = (rs.map FRecord.path)[j] := by
    rw [List.getElem_map, List.getElem_map]
    exact hc
  exact hij ((hnd.getElem_inj_iff).mp this)

theorem rec_eq_of_path_eq {files : List FRecord}
    (hnd : (files.map FRecord.path).Nodup) {a b : FRecord}
    (ha : a ∈ files) (hb : b ∈ files) (hp : a.path = b.path) : a = b := by
  have := List.inj_on_of_nodup_map hnd
  exact this ha hb hp

/-- Index-level connectivity transfers to record-level connectivity. -/
theorem connIdx_to_rec {rs : List FRecord}
    (hnd : (rs.map FRecord.path).Nodup) {i j : Nat}
    (h : Join (MatchEdge rs.length (matchIdx rs)) i j) :
    ConnR rs (rs.getD i dfltRec) (rs.getD j dfltRec) := by
  induction h with
  | base hr =>
      obtain ⟨hu, hv, hne, hm⟩ := hr
      refine Join.base ⟨?_, ?_, ?_, ?_⟩
      · rw [List.getD_eq_getElem rs dfltRec hu]
        exact List.getElem_mem hu
      · rw [List.getD_eq_getElem rs dfltRec hv]
        exact List.getElem_mem hv
      · intro hc
        exact path_ne_of_nodup hnd hu hv hne (by rw [hc])
      · exact matchRec_iff.mp hm
  | refl a => exact Join.refl _
  | symm _ ih => exact Join.symm ih
  | trans _ _ ih1 ih2 => exact Join.trans ih1 ih2

/-- Record-level connectivity transfers back to index-level connectivity. -/
theorem connR_to_idx {rs : List FRecord}
    (hnd : (rs.map FRecord.path).Nodup) {a b : FRecord}
    (h : ConnR rs a b) :
    a = b ∨ ∃ i j, i < rs.length ∧ j < rs.length ∧
      rs.getD i dfltRec = a ∧ rs.getD j dfltRec = b ∧
      Join (MatchEdge rs.length (matchIdx rs)) i j := by
  have hrsnd : rs.Nodup := List.Nodup.of_map FRecord.path hnd
  induction h with
  | base hr =>
      obtain ⟨hu, hv, hne, hm⟩ := hr
      obtain ⟨i, hi, hieq⟩ := List.mem_iff_getElem.mp hu
      obtain ⟨j, hj, hjeq⟩ := List.mem_iff_getElem.mp hv
      refine Or.inr ⟨i, j, hi, hj, ?_, ?_, ?_⟩
      · rw [List.getD_eq_getElem rs dfltRec hi]; exact hieq
      · rw [List.getD_eq_getElem rs dfltRec hj]; exact hjeq
      · have hij : i ≠ j := by
          intro hc
          subst hc
          rw [hieq] at hjeq
          exact hne hjeq
        refine Join.base ⟨hi, hj, hij, matchRec_iff.mpr ?_⟩
        rw [List.getD_eq_getElem rs dfltRec hi, List.getD_eq_getElem rs dfltRec hj,
          hieq, hjeq]
        exact hm
  | refl a => exact Or.inl rfl
  | symm _ ih =>
      rcases ih with h | ⟨i, j, hi, hj, hia, hjb, hcon⟩
      · exact Or.inl h.symm
      · exact Or.inr ⟨j, i, hj, hi, hjb, hia, Join.symm hcon⟩
  | trans _ _ ih1 ih2 =>
      rcases ih1 with h1 | ⟨i, j1, hi, hj1, hia, hj1c, hcon1⟩
      · rcases ih2 with h2 | h2
        · exact Or.inl (h1.trans h2)
        · rw [h1]
          exact Or.inr h2
      · rcases ih2 with h2 | ⟨j2, k, hj2, hk, hj2c, hkb, hcon2⟩
        · rw [← h2]
          exact Or.inr ⟨i, j1, hi, hj1, hia, hj1c, hcon1⟩
        · have hjj : j1 = j2 := by
            have e1 : rs[j1] = rs[j2] := by
              rw [← List.getD_eq_getElem rs dfltRec hj1,
                ← List.getD_eq_getElem rs dfltRec hj2, hj1c, hj2c]
            exact (hrsnd.getElem_inj_iff).mp e1
          subst hjj
          exact Or.inr ⟨i, k, hi, hk, hia, hkb, Join.trans hcon1 hcon2⟩

theorem mem_sizeKeys {files : List FRecord} {s : Nat} :
    s ∈ sizeKeys files ↔ ∃ r ∈ files, r.size = s := by
  have general : ∀ (l : List FRecord) (acc : List Nat),
      (s ∈ l.foldl (fun ks r => if r.size ∈ ks then ks else ks ++ [r.size]) acc ↔
        s ∈ acc ∨ ∃ r ∈ l, r.size = s) := by
    intro l
    induction l with
    | nil => intro acc; simp
    | cons r l ih =>
        intro acc
        show s ∈ l.foldl _ (if r.size ∈ acc then acc else acc ++ [r.size]) ↔ _
        rw [ih]
        by_cases hc : r.size ∈ acc
        · rw [if_pos hc]
          constructor
          · rintro (h | h)
            · exact Or.inl h
            · exact Or.inr (by
                obtain ⟨r', hr', he⟩ := h
                exact ⟨r', List.mem_cons_of_mem r hr', he⟩)
          · rintro (h | ⟨r', hr', he⟩)
            · exact Or.inl h
            · rcases List.mem_cons.mp hr' with h' | h'
              · subst h'
                exact Or.inl (he ▸ hc)
              · exact Or.inr ⟨r', h', he⟩
        · rw [if_neg hc]
          constructor
          · rintro (h | h)
            · rcases List.mem_append.mp h with h' | h'
              · exact Or.inl h'
              · rw [List.mem_singleton] at h'
                exact Or.inr ⟨r, List.mem_cons_self r l, h'.symm⟩
            · obtain ⟨r', hr', he⟩ := h
              exact Or.inr ⟨r', List.mem_cons_of_mem r hr', he⟩
          · rintro (h | ⟨r', hr', he⟩)
            · exact Or.inl (List.mem_append_left _ h)
            · rcases List.mem_cons.mp hr' with h' | h'
              · subst h'
                exact Or.inl (List.mem_append_right _
                  (List.mem_singleton.mpr he.symm))
              · exact Or.inr ⟨r', h', he⟩
  rw [sizeKeys, general files []]
  simp

theorem mem_find_duplicates {files : List FRecord} {g : List String} :
    g ∈ find_duplicates files ↔
      ∃ s ∈ sizeKeys files,
        ¬(files.filter (fun r => decide (r.size = s))).length < 2 ∧
        g ∈ processBucket (files.filter (fun r => decide (r.size = s))) := by
  rw [find_duplicates, List.mem_flatMap]
  constructor
  · rintro ⟨s, hs, hg⟩
    by_cases hc : (files.filter (fun r => decide (r.size = s))).length < 2
    · rw [if_pos hc] at hg
      cases hg
    · rw [if_neg hc] at hg
      exact ⟨s, hs, hc, hg⟩
  · rintro ⟨s, hs, hc, hg⟩
    refine ⟨s, hs, ?_⟩
    rw [if_neg hc]
    exact hg

theorem maxByDepth_cons (hd : String) (t : List String) :
    maxByDepth (hd :: t) = some (t.foldl pickDeeper hd) := rfl

theorem foldPick_spec (t : List String) :
    ∀ (best : String),
      get_depth best ≤ get_depth (t.foldl pickDeeper best) ∧
      (∀ x ∈ t, get_depth x ≤ get_depth (t.foldl pickDeeper best)) ∧
      (t.foldl pickDeeper best = best ∨
        ∃ l1 l2, t = l1 ++ t.foldl pickDeeper best :: l2 ∧
          get_depth best < get_depth (t.foldl pickDeeper best) ∧
          ∀ x ∈ l1, get_depth x < get_depth (t.foldl pickDeeper best)) := by
  induction t with
  | nil => intro best; exact ⟨Nat.le_refl _, by simp, Or.inl rfl⟩
  | cons x t ih =>
      intro best
      by_cases hc : get_depth best < get_depth x
      · have hstep : (x :: t).foldl pickDeeper best = t.foldl pickDeeper x := by
          show t.foldl pickDeeper (pickDeeper best x) = _
          rw [pickDeeper, if_pos hc]
        obtain ⟨ih1, ih2, ih3⟩ := ih x
        rw [hstep]
        refine ⟨Nat.le_of_lt (Nat.lt_of_lt_of_le hc ih1), ?_, ?_⟩
        · intro y hy
          rcases List.mem_cons.mp hy with h | h
          · subst h; exact ih1
          · exact ih2 y h
        · rcases ih3 with h | ⟨l1, l2, hsplit, hlt, hall⟩
          · refine Or.inr ⟨[], t, ?_, ?_, by simp⟩
            · rw [h]; simp
            · rw [h]; exact hc
          · refine Or.inr ⟨x :: l1, l2, ?_, ?_, ?_⟩
            · rw [List.cons_append, ← hsplit]
            · exact Nat.lt_trans hc hlt
            · intro y hy
              rcases List.mem_cons.mp hy with h | h
              · subst h; exact hlt
              · exact hall y h
      · have hstep : (x :: t).foldl pickDeeper best = t.foldl pickDeeper best := by
          show t.foldl pickDeeper (pickDeeper best x) = _
          rw [pickDeeper, if_neg hc]
        obtain ⟨ih1, ih2, ih3⟩ := ih best
        rw [hstep]
        refine ⟨ih1, ?_, ?_⟩
        · intro y hy
          rcases List.mem_cons.mp hy with h | h
          · subst h
            exact Nat.le_trans (Nat.le_of_not_lt hc) ih1
          · exact ih2 y h
        · rcases ih3 with h | ⟨l1, l2, hsplit, hlt, hall⟩
          · exact Or.inl h
          · refine Or.inr ⟨x :: l1, l2, ?_, hlt, ?_⟩
            · rw [List.cons_append, ← hsplit]
            · intro y hy
              rcases List.mem_cons.mp hy with h | h
              · subst h
                exact Nat.lt_of_le_of_lt (Nat.le_of_not_lt hc) hlt
              · exact hall y h

/-- `max(group, key=get_depth)` returns the first member attaining the
maximum depth: it is a member, no member is deeper, and every member listed
before it is strictly shallower. -/
theorem maxByDepth_spec {group : List String} {k : String}
    (h : maxByDepth group = some k) :
    k ∈ group ∧ (∀ x ∈ group, get_depth x ≤ get_depth k) ∧
    ∃ l1 l2, group = l1 ++ k :: l2 ∧ ∀ x ∈ l1, get_depth x < get_depth k := by
  cases group with
  | nil => cases h
  | cons hd t =>
      have hk : t.foldl pickDeeper hd = k := by
        rw [maxByDepth_cons] at h
        exact Option.some_inj.mp h
      obtain ⟨h1, h2, h3⟩ := foldPick_spec t hd
      rw [hk] at h1 h2 h3
      refine ⟨?_, ?_, ?_⟩
      · rcases h3 with h | ⟨l1, l2, hsplit, _, _⟩
        · rw [h]; exact List.mem_cons_self hd t
        · rw [hsplit]
          exact List.mem_cons_of_mem hd (List.mem_append_right l1
            (List.mem_cons_self _ l2))
      · intro x hx
        rcases List.mem_cons.mp hx with h | h
        · subst h; exact h1
        · exact h2 x h
      · rcases h3 with h | ⟨l1, l2, hsplit, hlt, hall⟩
        · exact ⟨[], t, by rw [h]; simp, by simp⟩
        · refine ⟨hd :: l1, l2, ?_, ?_⟩
          · rw [List.cons_append, ← hsplit]
          · intro x hx
            rcases List.mem_cons.mp hx with h | h
            · subst h; exact hlt
            · exact hall x h

theorem maxByDepth_isSome {group : List String} (h : group ≠ []) :
    ∃ k, maxByDepth group = some k := by
  cases group with
  | nil => exact absurd rfl h
  | cons hd t => exact ⟨_, rfl⟩

/-- Everything the retention policy marks for disposal is a group member. -/
theorem handle_one_subset {kd : Option String} {group : List String} :
    ∀ f ∈ handle_one kd group, f ∈ group := by
  intro f hf
  cases kd with
  | none =>
      rw [handle_one] at hf
      cases hg : maxByDepth group with
      | none => rw [hg] at hf; cases hf
      | some k =>
          rw [hg] at hf
          exact (List.mem_filter.mp hf).1
  | some kd =>
      rw [handle_one] at hf
      by_cases hc : (group.filter (fun f => is_in_directory f kd)).isEmpty
      · rw [if_pos hc] at hf
        cases hg : maxByDepth group with
        | none => rw [hg] at hf; cases hf
        | some k =>
            rw [hg] at hf
            exact (List.mem_filter.mp hf).1
      · rw [if_neg hc] at hf
        exact (List.mem_filter.mp hf).1

/-- With a keep-directory and at least one member inside it, the members
inside are never trashed and the members outside always are. -/
theorem handle_one_keep {kd : String} {group : List String} {f : String}
    (hf : f ∈ group) (hin : ∃ x ∈ group, is_in_directory x kd = true) :
    (is_in_directory f kd = true → f ∉ handle_one (some kd) group) ∧
    (is_in_directory f kd = false → f ∈ handle_one (some kd) group) := by
  obtain ⟨x, hx, hxd⟩ := hin
  have himm : x ∈ group.filter (fun f => is_in_directory f kd) :=
    List.mem_filter.mpr ⟨hx, hxd⟩
  have hne : ¬(group.filter (fun f => is_in_directory f kd)).isEmpty := by
    intro hc
    rw [List.isEmpty_iff] at hc
    rw [hc] at himm
    cases himm
  have hform : handle_one (some kd) group =
      group.filter
        (fun f => !((group.filter (fun f => is_in_directory f kd)).contains f)) := by
    rw [handle_one, if_neg hne]
  constructor
  · intro hd hmem
    rw [hform] at hmem
    have h2 := (List.mem_filter.mp hmem).2
    have h3 : (group.filter (fun f => is_in_directory f kd)).contains f = true :=
      List.elem_iff.mpr (List.mem_filter.mpr ⟨hf, hd⟩)
    rw [h3] at h2
    cases h2
  · intro hd
    rw [hform]
    refine List.mem_filter.mpr ⟨hf, ?_⟩
    have h3 : ¬(group.filter (fun f => is_in_directory f kd)).contains f = true := by
      intro hc
      have := (List.mem_filter.mp (List.elem_iff.mp hc)).2
      rw [hd] at this
      cases this
    rw [Bool.not_eq_true] at h3
    rw [h3]
    rfl

/-- Depth rule (no keep-directory): a member escapes disposal only by being
the chosen deepest file. -/
theorem handle_one_none_survivor {group : List String} {f keep : String}
    (hmax : maxByDepth group = some keep) (hf : f ∈ group)
    (hnm : f ∉ handle_one none group) : f = keep := by
  rw [handle_one, hmax] at hnm
  by_contra hne
  exact hnm (List.mem_filter.mpr ⟨hf, by simpa using hne⟩)

/-- Depth rule under a keep-directory with no immune member. -/
theorem handle_one_some_empty_survivor {kd : String} {group : List String}
    {f keep : String}
    (hemp : (group.filter (fun f => is_in_directory f kd)).isEmpty)
    (hmax : maxByDepth group = some keep) (hf : f ∈ group)
    (hnm : f ∉ handle_one (some kd) group) : f = keep := by
  rw [handle_one, if_pos hemp, hmax] at hnm
  by_contra hne
  exact hnm (List.mem_filter.mpr ⟨hf, by simpa using hne⟩)

/-- Keep-directory with an immune member: a member escaping disposal is
inside the keep-directory. -/
theorem handle_one_some_survivor {kd : String} {group : List String} {f : String}
    (hemp : ¬(group.filter (fun f => is_in_directory f kd)).isEmpty)
    (hf : f ∈ group) (hnm : f ∉ handle_one (some kd) group) :
    is_in_directory f kd = true := by
  by_contra hc
  rw [Bool.not_eq_true] at hc
  obtain ⟨x, hximm⟩ := List.exists_mem_of_ne_nil _
    (fun hnil => hemp (List.isEmpty_iff.mpr hnil))
  have hx := List.mem_filter.mp hximm
  exact hnm ((handle_one_keep hf ⟨x, hx.1, hx.2⟩).2 hc)

/-- A group whose members all lie in the keep-directory has nothing to
trash. -/
theorem handle_one_all_immune {kd : String} {group : List String}
    (hne : group ≠ []) (hall : ∀ f ∈ group, is_in_directory f kd = true) :
    handle_one (some kd) group = [] := by
  have hfil : group.filter (fun f => is_in_directory f kd) = group :=
    List.filter_eq_self.mpr hall
  have hemp : ¬(group.filter (fun f => is_in_directory f kd)).isEmpty := by
    rw [hfil]
    intro hc
    exact hne (List.isEmpty_iff.mp hc)
  rw [handle_one, if_neg hemp, hfil]
  rw [List.filter_eq_nil_iff]
  intro f hf
  have : group.contains f = true := List.elem_iff.mpr hf
  rw [this]
  intro hc
  cases hc

theorem disposal_inner (ok : String → Bool) :
    ∀ (l : List String) (st : List String × Nat),
      l.foldl (fun st2 fp => (st2.1 ++ [fp], if ok fp then st2.2 + 1 else st2.2)) st
        = (st.1 ++ l, st.2 + (l.filter ok).length) := by
  intro l
  induction l with
  | nil => intro st; simp
  | cons fp l ih =>
      intro st
      show l.foldl _ (st.1 ++ [fp], if ok fp then st.2 + 1 else st.2) = _
      rw [ih]
      by_cases hc : ok fp
      · rw [if_pos hc]
        simp only [List.filter_cons, hc, if_pos, List.length_cons]
        refine Prod.ext ?_ ?_
        · simp
        · simp only []
          omega
      · rw [if_neg hc]
        have : ok fp = false := by
          rw [Bool.not_eq_true] at hc
          exact hc
        simp only [List.filter_cons, this]
        refine Prod.ext ?_ ?_
        · simp
        · rfl

/-- The disposal loop attempts every discard exactly once, in order,
regardless of per-file failures, and counts exactly the successful moves. -/
theorem handle_duplicates_spec (ok : String → Bool)
    (gs : List (List String)) (kd : Option String) :
    handle_duplicates ok gs kd =
      (gs.flatMap (handle_one kd),
        ((gs.flatMap (handle_one kd)).filter ok).length) := by
  have general : ∀ (gs : List (List String)) (st : List String × Nat),
      gs.foldl
        (fun st group =>
          (handle_one kd group).foldl
            (fun st2 fp => (st2.1 ++ [fp], if ok fp then st2.2 + 1 else st2.2))
            st)
        st
        = (st.1 ++ gs.flatMap (handle_one kd),
           st.2 + ((gs.flatMap (handle_one kd)).filter ok).length) := by
    intro gs
    induction gs with
    | nil => intro st; simp
    | cons g gs ih =>
        intro st
        show gs.foldl _ ((handle_one kd g).foldl _ st) = _
        rw [disposal_inner, ih]
        simp only [List.flatMap_cons, List.filter_append, List.length_append,
          List.append_assoc]
        refine Prod.ext rfl ?_
        simp only []
        omega
  rw [handle_duplicates, general gs ([], 0)]
  simp

/-- Inventory characterization: exactly the visited entries that pass
`os.path.isfile` and whose size is obtained end up in the inventory. -/
theorem mem_scanInventory {entries : List Entry} {pr : String × Nat} :
    pr ∈ scanInventory entries ↔
      ∃ e ∈ entries, e.path = pr.1 ∧ e.sizeRes = some pr.2 ∧ isfile e = true := by
  rw [scanInventory, List.mem_flatMap]
  constructor
  · rintro ⟨e, he, hmem⟩
    by_cases hc : isfile e
    · rw [if_pos hc] at hmem
      cases hs : e.sizeRes with
      | none => rw [hs] at hmem; cases hmem
      | some sz =>
          rw [hs] at hmem
          rw [List.mem_singleton] at hmem
          subst hmem
          exact ⟨e, he, rfl, hs, hc⟩
    · rw [if_neg hc] at hmem
      cases hmem
  · rintro ⟨e, he, hpath, hsize, hfile⟩
    refine ⟨e, he, ?_⟩
    rw [if_pos hfile, hsize]
    rw [List.mem_singleton]
    cases pr with
    | mk a b =>
        simp only at hpath hsize ⊢
        rw [hpath]

/-- `is_in_directory` is the separator-aware prefix test: for a directory
path without a trailing separator it holds exactly when the file path starts
with the directory path followed by `'/'`. -/
theorem is_in_directory_iff {f d : String}
    (hd : ¬ d.data.getLastD ' ' = '/') :
    is_in_directory f d = true ↔ (d.data ++ ['/']) <+: f.data := by
  rw [is_in_directory]
  simp only [if_neg hd]
  rw [ List.isPrefixOf_iff_prefix, String.data_append]

theorem exists_two_distinct {α : Type} {l : List α} (hnd : l.Nodup)
    (hlen : 1 < l.length) : ∃ a ∈ l, ∃ b ∈ l, a ≠ b := by
  cases l with
  | nil => simp at hlen
  | cons a t =>
      cases t with
      | nil => simp at hlen
      | cons b t' =>
          refine ⟨a, List.mem_cons_self a _, b,
            List.mem_cons_of_mem a (List.mem_cons_self b t'), ?_⟩
          intro hc
          subst hc
          exact (List.nodup_cons.mp hnd).1 (List.mem_cons_self a t')

theorem exists_ne_mem {α : Type} [DecidableEq α] {l : List α} (hnd : l.Nodup)
    (hlen : 1 < l.length) (x : α) : ∃ y ∈ l, y ≠ x := by
  obtain ⟨a, ha, b, hb, hab⟩ := exists_two_distinct hnd hlen
  by_cases hc : a = x
  · subst hc
    exact ⟨b, hb, fun hcon => hab hcon.symm⟩
  · exact ⟨a, ha, hc⟩

theorem classList_nodup {rs : List FRecord}
    (hnd : (rs.map FRecord.path).Nodup) (r : Nat) :
    (classList rs r).Nodup := by
  rw [classList]
  have hfil : ((List.range rs.length).filter
      (fun i => decide (bucketRoot rs i = r))).Nodup :=
    List.Nodup.filter _ (List.nodup_range rs.length)
  refine (List.nodup_map_iff_inj_on hfil).mpr ?_
  intro i hi j hj hij
  have hi' := List.mem_range.mp (List.mem_filter.mp hi).1
  have hj' := List.mem_range.mp (List.mem_filter.mp hj).1
  by_contra hc
  exact path_ne_of_nodup hnd hi' hj' hc hij

/-- C1 (code bug at the failing input): two files that are unreadable from
the first byte receive the same digest — the digest of the empty byte
sequence — because `compute_md5` catches the read error and still returns
`md5_hash.hexdigest()`.  With equal sizes and different basenames they are
grouped as duplicates purely through this shared default digest, the exact
empty-digest wildcard behavior the specification forbids (`ReadError` +
"fingerprint unavailable"). -/
theorem C1_unreadable_files_grouped :
    compute_md5 ⟨"/a/x", 5, [], true⟩ = compute_md5 ⟨"/b/y", 5, [], true⟩ ∧
    basename "/a/x" ≠ basename "/b/y" ∧
    find_duplicates [⟨"/a/x", 5, [], true⟩, ⟨"/b/y", 5, [], true⟩] =
      [["/a/x", "/b/y"]] :=
  ⟨rfl, by decide, by decide⟩

/-- C2: with a configured keep-directory and at least one group member
inside it, every member inside the directory survives (is never in the
trash list) and every member outside it is trashed. -/
theorem C2_protected_directory_precedence (group : List String) (kd f : String)
    (hf : f ∈ group) (hin : ∃ x ∈ group, is_in_directory x kd = true) :
    (is_in_directory f kd = true → f ∉ handle_one (some kd) group) ∧
    (is_in_directory f kd = false → f ∈ handle_one (some kd) group) :=
  handle_one_keep hf hin

theorem C2_witness :
    ("/tmp/b" ∈ (["/keep/a", "/tmp/b"] : List String)) ∧
    (∃ x ∈ (["/keep/a", "/tmp/b"] : List String),
      is_in_directory x "/keep" = true) ∧
    ((is_in_directory "/tmp/b" "/keep" = true →
        "/tmp/b" ∉ handle_one (some "/keep") ["/keep/a", "/tmp/b"]) ∧
     (is_in_directory "/tmp/b" "/keep" = false →
        "/tmp/b" ∈ handle_one (some "/keep") ["/keep/a", "/tmp/b"])) :=
  ⟨by decide, by decide,
    C2_protected_directory_precedence ["/keep/a", "/tmp/b"] "/keep" "/tmp/b"
      (by decide) (by decide)⟩

/-- C3: for every non-empty group the retention decision partitions the
group: the survivors (members not in the trash list) are non-empty, the
trash list only holds members, every member is a survivor or a discard, and
no member is both. -/
theorem C3_retention_partition (group : List String) (kd : Option String)
    (hne : group ≠ []) :
    (∃ f ∈ group, f ∉ handle_one kd group) ∧
    (∀ f ∈ handle_one kd group, f ∈ group) ∧
    (∀ f, f ∈ group ↔
      (f ∈ group.filter (fun x => !((handle_one kd group).contains x)) ∨
       f ∈ handle_one kd group)) ∧
    (∀ f, ¬(f ∈ group.filter (fun x => !((handle_one kd group).contains x)) ∧
      f ∈ handle_one kd group)) := by
  have hsub : ∀ f ∈ handle_one kd group, f ∈ group :=
    fun f => handle_one_subset f
  refine ⟨?_, hsub, ?_, ?_⟩
  · -- a survivor always exists
    obtain ⟨keep, hkeep⟩ := maxByDepth_isSome hne
    have hkmem := (maxByDepth_spec hkeep).1
    cases kd with
    | none =>
        refine ⟨keep, hkmem, ?_⟩
        intro hmem
        rw [handle_one, hkeep] at hmem
        have := (List.mem_filter.mp hmem).2
        simp at this
    | some kdv =>
        by_cases hemp : (group.filter (fun f => is_in_directory f kdv)).isEmpty
        · refine ⟨keep, hkmem, ?_⟩
          intro hmem
          rw [handle_one, if_pos hemp, hkeep] at hmem
          have := (List.mem_filter.mp hmem).2
          simp at this
        · obtain ⟨x, hximm⟩ := List.exists_mem_of_ne_nil _
            (fun hnil => hemp (List.isEmpty_iff.mpr hnil))
          have hx := List.mem_filter.mp hximm
          refine ⟨x, hx.1, ?_⟩
          exact (handle_one_keep hx.1 ⟨x, hx.1, hx.2⟩).1 hx.2
  · intro f
    constructor
    · intro hf
      by_cases hc : f ∈ handle_one kd group
      · exact Or.inr hc
      · refine Or.inl (List.mem_filter.mpr ⟨hf, ?_⟩)
        have : ¬(handle_one kd group).contains f = true := by
          intro hcon
          exact hc (List.elem_iff.mp hcon)
        rw [Bool.not_eq_true] at this
        rw [this]
        rfl
    · rintro (hf | hf)
      · exact (List.mem_filter.mp hf).1
      · exact hsub f hf
  · rintro f ⟨hs, hd⟩
    have := (List.mem_filter.mp hs).2
    have hcon : (handle_one kd group).contains f = true := List.elem_iff.mpr hd
    rw [hcon] at this
    cases this

theorem C3_witness :
    ((["/a/b", "/a/c"] : List String) ≠ []) ∧
    ((∃ f ∈ (["/a/b", "/a/c"] : List String),
        f ∉ handle_one none ["/a/b", "/a/c"]) ∧
     (∀ f ∈ handle_one none ["/a/b", "/a/c"],
        f ∈ (["/a/b", "/a/c"] : List String)) ∧
     (∀ f, f ∈ (["/a/b", "/a/c"] : List String) ↔
       (f ∈ (["/a/b", "/a/c"] : List String).filter
          (fun x => !((handle_one none ["/a/b", "/a/c"]).contains x)) ∨
        f ∈ handle_one none ["/a/b", "/a/c"])) ∧
     (∀ f, ¬(f ∈ (["/a/b", "/a/c"] : List String).filter
          (fun x => !((handle_one none ["/a/b", "/a/c"]).contains x)) ∧
        f ∈ handle_one none ["/a/b", "/a/c"]))) :=
  ⟨by decide, C3_retention_partition ["/a/b", "/a/c"] none (by decide)⟩

/-- C4 (counterexample): two orderings of the same two equally-deep paths.
`max` keeps the first maximal element, so the lists — permutations of one
another, with identical depths — yield different survivors and different
trash lists: the tie-break depends on encounter order, refuting
order-independence. -/
theorem C4_counterexample :
    (["/a/b", "/a/c"] : List String).Perm ["/a/c", "/a/b"] ∧
    get_depth "/a/b" = get_depth "/a/c" ∧
    maxByDepth ["/a/b", "/a/c"] = some "/a/b" ∧
    maxByDepth ["/a/c", "/a/b"] = some "/a/c" ∧
    handle_one none ["/a/b", "/a/c"] = ["/a/c"] ∧
    handle_one none ["/a/c", "/a/b"] = ["/a/b"] :=
  ⟨by decide, by decide, by decide, by decide, by decide, by decide⟩

/-- C4 (amended): the selection is deterministic as a function of the
ordered member list — the survivor is the first member attaining the maximum
depth (it is a member, no member is deeper, and every member encountered
before it is strictly shallower).  When depths tie, the survivor therefore
depends on encounter order, not on the set of paths alone. -/
theorem C4_first_encountered_max (group : List String) (k : String)
    (h : maxByDepth group = some k) :
    k ∈ group ∧ (∀ x ∈ group, get_depth x ≤ get_depth k) ∧
    ∃ l1 l2, group = l1 ++ k :: l2 ∧ ∀ x ∈ l1, get_depth x < get_depth k :=
  maxByDepth_spec h

theorem C4_witness :
    (maxByDepth ["/a", "/b/c", "/d/e"] = some "/b/c") ∧
    ("/b/c" ∈ (["/a", "/b/c", "/d/e"] : List String) ∧
     (∀ x ∈ (["/a", "/b/c", "/d/e"] : List String),
        get_depth x ≤ get_depth "/b/c") ∧
     ∃ l1 l2, (["/a", "/b/c", "/d/e"] : List String) = l1 ++ "/b/c" :: l2 ∧
       ∀ x ∈ l1, get_depth x < get_depth "/b/c") :=
  ⟨by decide, C4_first_encountered_max ["/a", "/b/c", "/d/e"] "/b/c" (by decide)⟩

/-- C8: the disposal loop visits every discard of every retention decision
exactly once, in order, whether or not earlier moves failed (the call log is
exactly the concatenated discard lists), and the returned count is exactly
the number of discards whose move to trash succeeded. -/
theorem C8_disposal_partial_failure (ok : String → Bool)
    (gs : List (List String)) (kd : Option String) :
    (handle_duplicates ok gs kd).1 = gs.flatMap (handle_one kd) ∧
    (handle_duplicates ok gs kd).2 =
      ((gs.flatMap (handle_one kd)).filter ok).length := by
  rw [handle_duplicates_spec]
  exact ⟨rfl, rfl⟩

/-- C9 (counterexample): a symbolic link that resolves to a regular file is
included in the inventory — `os.path.isfile` follows links — refuting the
claim that symbolic links are excluded. -/
theorem C9_counterexample :
    isfile ⟨"/d/link", EntryKind.symlinkToFile, some 5⟩ = true ∧
    scanInventory [⟨"/d/link", EntryKind.symlinkToFile, some 5⟩] =
      [("/d/link", 5)] :=
  ⟨rfl, by decide⟩

/-- C9 (amended): the inventory holds exactly the visited entries that pass
`os.path.isfile` — regular files and symlinks resolving to regular files —
and whose size was obtained; directories, symlinks to directories, broken
symlinks and entries whose size cannot be determined are excluded, without
aborting the scan. -/
theorem C9_scan_characterization (entries : List Entry) :
    (∀ pr : String × Nat, pr ∈ scanInventory entries ↔
      ∃ e ∈ entries, e.path = pr.1 ∧ e.sizeRes = some pr.2 ∧ isfile e = true) ∧
    (∀ e : Entry, isfile e = true ↔
      (e.kind = EntryKind.regular ∨ e.kind = EntryKind.symlinkToFile)) := by
  refine ⟨fun pr => mem_scanInventory, ?_⟩
  intro e
  cases e with
  | mk p k s =>
      cases k <;> simp [isfile]

/-- C10: membership in the protected directory is the strict separator-aware
prefix test — for a normalized directory path (no trailing separator) it
holds exactly when the file path starts with the directory path followed by
a separator; a bare string prefix (`/keepers/x` against `/keep`) is not
inside, and the directory itself is not inside itself. -/
theorem C10_prefix_test (f d : String)
    (hd : ¬ d.data.getLastD ' ' = '/') :
    (is_in_directory f d = true ↔ (d.data ++ ['/']) <+: f.data) ∧
    is_in_directory "/keepers/x" "/keep" = false ∧
    is_in_directory "/keep" "/keep" = false :=
  ⟨is_in_directory_iff hd, by decide, by decide⟩

theorem C10_witness :
    (¬ ("/keep" : String).data.getLastD ' ' = '/') ∧
    ((is_in_directory "/keep/a" "/keep" = true ↔
        (("/keep" : String).data ++ ['/']) <+: ("/keep/a" : String).data) ∧
     is_in_directory "/keepers/x" "/keep" = false ∧
     is_in_directory "/keep" "/keep" = false) :=
  ⟨by decide, C10_prefix_test "/keep/a" "/keep" (by decide)⟩

/-- C5: within a size bucket, pairwise matches chain: if records `i, j`
match (same fingerprint or same basename) and records `j, k` match, then the
paths of all three are emitted inside one and the same duplicate group, even
when `i` and `k` match neither directly. -/
theorem C5_transitive_grouping (files : List FRecord) (s : Nat)
    (B : List FRecord) (hB : B = files.filter (fun r => decide (r.size = s)))
    (i j k : Nat) (hi : i < B.length) (hj : j < B.length) (hk : k < B.length)
    (hij : i ≠ j) (hjk : j ≠ k)
    (h1 : MatchR (B.getD i dfltRec) (B.getD j dfltRec))
    (h2 : MatchR (B.getD j dfltRec) (B.getD k dfltRec)) :
    ∃ g ∈ find_duplicates files,
      (B.getD i dfltRec).path ∈ g ∧ (B.getD j dfltRec).path ∈ g ∧
      (B.getD k dfltRec).path ∈ g := by
  have e1 : MatchEdge B.length (matchIdx B) i j :=
    ⟨hi, hj, hij, matchRec_iff.mpr h1⟩
  have e2 : MatchEdge B.length (matchIdx B) j k :=
    ⟨hj, hk, hjk, matchRec_iff.mpr h2⟩
  have sr_ij := (bucketUF_iff (matchIdx_symm B) i j).mpr (Join.base e1)
  have sr_jk := (bucketUF_iff (matchIdx_symm B) j k).mpr (Join.base e2)
  have sr_ik := sameRoot_trans sr_ij sr_jk
  have hemit := processBucket_emits hi hj hij sr_ij
  refine ⟨classList B (bucketRoot B i), ?_, ?_, ?_, ?_⟩
  · refine mem_find_duplicates.mpr ⟨s, ?_, ?_, ?_⟩
    · have hmem : B.getD i dfltRec ∈ B := by
        rw [List.getD_eq_getElem B dfltRec hi]
        exact List.getElem_mem hi
      rw [hB] at hmem
      have := List.mem_filter.mp hmem
      exact mem_sizeKeys.mpr ⟨_, this.1, of_decide_eq_true this.2⟩
    · rw [← hB]
      omega
    · rw [← hB]
      exact hemit
  · exact mem_classList.mpr ⟨i, hi, rfl, rfl⟩
  · exact mem_classList.mpr ⟨j, hj,
      (bucketRoot_eq_iff hj hi).mpr (sameRoot_symm sr_ij), rfl⟩
  · exact mem_classList.mpr ⟨k, hk,
      (bucketRoot_eq_iff hk hi).mpr (sameRoot_symm sr_ik), rfl⟩

theorem C5_witness :
    (([⟨"/a/x", 9, [[1]], false⟩, ⟨"/b/y", 9, [[1]], false⟩,
        ⟨"/c/y", 9, [[2]], false⟩] : List FRecord) =
      ([⟨"/a/x", 9, [[1]], false⟩, ⟨"/b/y", 9, [[1]], false⟩,
        ⟨"/c/y", 9, [[2]], false⟩] : List FRecord).filter
        (fun r => decide (r.size = 9))) ∧
    (0 : Nat) ≠ 1 ∧ (1 : Nat) ≠ 2 ∧
    MatchR (⟨"/a/x", 9, [[1]], false⟩ : FRecord) ⟨"/b/y", 9, [[1]], false⟩ ∧
    MatchR (⟨"/b/y", 9, [[1]], false⟩ : FRecord) ⟨"/c/y", 9, [[2]], false⟩ ∧
    ∃ g ∈ find_duplicates
        [⟨"/a/x", 9, [[1]], false⟩, ⟨"/b/y", 9, [[1]], false⟩,
         ⟨"/c/y", 9, [[2]], false⟩],
      (("/a/x" : String)) ∈ g ∧ (("/b/y" : String)) ∈ g ∧
      (("/c/y" : String)) ∈ g :=
  ⟨by decide, by decide, by decide, by decide, by decide,
    C5_transitive_grouping
      [⟨"/a/x", 9, [[1]], false⟩, ⟨"/b/y", 9, [[1]], false⟩,
       ⟨"/c/y", 9, [[2]], false⟩] 9
      [⟨"/a/x", 9, [[1]], false⟩, ⟨"/b/y", 9, [[1]], false⟩,
       ⟨"/c/y", 9, [[2]], false⟩]
      (by decide) 0 1 2 (by decide) (by decide) (by decide)
      (by decide) (by decide) (by decide) (by decide)⟩

/-- C6 (counterexample): a bucket with two members that match neither by
content nor by name emits no group at all — the union of the emitted groups
is empty, not the bucket, refuting "their union is exactly the bucket's
records". -/
theorem C6_counterexample :
    (List.filter (fun r => decide (r.size = 5))
      ([⟨"/a/p", 5, [[1]], false⟩,
        ⟨"/b/q", 5, [[2]], false⟩] : List FRecord)).length = 2 ∧
    find_duplicates
      [⟨"/a/p", 5, [[1]], false⟩, ⟨"/b/q", 5, [[2]], false⟩] = [] :=
  ⟨by decide, by decide⟩

/-- C6 (amended): for a bucket with pairwise-distinct paths, every emitted
group has more than one member, the emitted groups are pairwise disjoint,
and their union is exactly the bucket records that are connected to at least
one other record — records matching nothing (singleton components) are
dropped, so the union can be a proper subset of the bucket. -/
theorem C6_bucket_partition (rs : List FRecord)
    (hnd : (rs.map FRecord.path).Nodup) :
    (∀ g ∈ processBucket rs, 1 < g.length) ∧
    (processBucket rs).Pairwise (fun g1 g2 => ∀ x ∈ g1, x ∉ g2) ∧
    (∀ str, str ∈ (processBucket rs).flatten ↔
      ∃ a ∈ rs, a.path = str ∧ ∃ b ∈ rs, b ≠ a ∧ ConnR rs a b) := by
  refine ⟨fun g hg => (processBucket_mem hg).1, ?_, ?_⟩
  · -- pairwise disjointness: distinct keys index disjoint classes
    rw [processBucket_eq]
    have hspec := keyFold_spec (bucketRoot rs)
      (fun i => (rs.getD i dfltRec).path) (List.range rs.length)
    have hkeys : (keyFold (bucketRoot rs)
        (fun i => (rs.getD i dfltRec).path) (List.range rs.length)).Pairwise
        (fun kl1 kl2 => kl1.1 ≠ kl2.1) :=
      List.pairwise_map.mp hspec.1
    have hpair : (keyFold (bucketRoot rs)
        (fun i => (rs.getD i dfltRec).path) (List.range rs.length)).Pairwise
        (fun kl1 kl2 => ∀ x ∈ kl1.2, x ∉ kl2.2) := by
      refine List.Pairwise.imp_of_mem ?_ hkeys
      intro kl1 kl2 h1 h2 hne x hx1 hx2
      rw [hspec.2.2 kl1 h1] at hx1
      rw [hspec.2.2 kl2 h2] at hx2
      obtain ⟨i, hi0, hieq⟩ := List.mem_map.mp hx1
      obtain ⟨j, hj0, hjeq⟩ := List.mem_map.mp hx2
      have hi := List.mem_filter.mp hi0
      have hj := List.mem_filter.mp hj0
      have hi' := List.mem_range.mp hi.1
      have hj' := List.mem_range.mp hj.1
      have hijeq : i = j := by
        by_contra hc
        exact path_ne_of_nodup hnd hi' hj' hc (by rw [hieq, hjeq])
      apply hne
      rw [← of_decide_eq_true hi.2, ← of_decide_eq_true hj.2, hijeq]
    have hmap : ((keyFold (bucketRoot rs)
        (fun i => (rs.getD i dfltRec).path) (List.range rs.length)).map
        Prod.snd).Pairwise (fun g1 g2 => ∀ x ∈ g1, x ∉ g2) :=
      List.pairwise_map.mpr hpair
    exact List.Pairwise.sublist (List.filter_sublist _) hmap
  · intro str
    constructor
    · intro h
      obtain ⟨g, hg, hstr⟩ := List.mem_flatten.mp h
      obtain ⟨hlen, r, hgr⟩ := processBucket_mem hg
      subst hgr
      obtain ⟨i, hi, hroot, hpath⟩ := mem_classList.mp hstr
      have hgnodup := classList_nodup hnd r
      obtain ⟨str2, hstr2, hne2⟩ := exists_ne_mem hgnodup hlen str
      obtain ⟨j, hj, hroot2, hpath2⟩ := mem_classList.mp hstr2
      have hij : i ≠ j := by
        intro hc
        subst hc
        rw [hpath] at hpath2
        exact hne2 hpath2.symm
      have hsr : SameRoot (bucketUF rs.length (matchIdx rs)) i j :=
        (bucketRoot_eq_iff hi hj).mp (hroot.trans hroot2.symm)
      have hconnIdx := (bucketUF_iff (matchIdx_symm rs) i j).mp hsr
      have hconnR := connIdx_to_rec hnd hconnIdx
      refine ⟨rs.getD i dfltRec, ?_, hpath, rs.getD j dfltRec, ?_, ?_, ?_⟩
      · rw [List.getD_eq_getElem rs dfltRec hi]
        exact List.getElem_mem hi
      · rw [List.getD_eq_getElem rs dfltRec hj]
        exact List.getElem_mem hj
      · intro hc
        exact path_ne_of_nodup hnd hj hi (fun h => hij h.symm) (by rw [hc])
      · exact Join.symm (Join.symm hconnR)
    · rintro ⟨a, ha, hpath, b, hb, hba, hconn⟩
      rcases connR_to_idx hnd hconn with heq | ⟨i, j, hi, hj, hia, hjb, hjoin⟩
      · exact absurd heq.symm hba
      · have hij : i ≠ j := by
          intro hc
          apply hba
          rw [← hjb, ← hc, hia]
        have hsr := (bucketUF_iff (matchIdx_symm rs) i j).mpr hjoin
        have hemit := processBucket_emits hi hj hij hsr
        refine List.mem_flatten.mpr ⟨classList rs (bucketRoot rs i), hemit, ?_⟩
        exact mem_classList.mpr ⟨i, hi, rfl, by rw [hia, hpath]⟩

theorem C6_witness :
    ((List.map FRecord.path
      [⟨"/a/x", 9, [[1]], false⟩, ⟨"/b/x", 9, [[2]], false⟩]).Nodup) ∧
    ((∀ g ∈ processBucket
        [⟨"/a/x", 9, [[1]], false⟩, ⟨"/b/x", 9, [[2]], false⟩],
        1 < g.length) ∧
     List.Pairwise (fun g1 g2 => ∀ x ∈ g1, x ∉ g2)
        (processBucket [⟨"/a/x", 9, [[1]], false⟩, ⟨"/b/x", 9, [[2]], false⟩]) ∧
     (∀ str, str ∈ List.flatten
          (processBucket [⟨"/a/x", 9, [[1]], false⟩, ⟨"/b/x", 9, [[2]], false⟩]) ↔
        ∃ a ∈ ([⟨"/a/x", 9, [[1]], false⟩,
            ⟨"/b/x", 9, [[2]], false⟩] : List FRecord), a.path = str ∧
          ∃ b ∈ ([⟨"/a/x", 9, [[1]], false⟩,
              ⟨"/b/x", 9, [[2]], false⟩] : List FRecord), b ≠ a ∧
            ConnR [⟨"/a/x", 9, [[1]], false⟩, ⟨"/b/x", 9, [[2]], false⟩] a b)) :=
  ⟨by decide,
    C6_bucket_partition [⟨"/a/x", 9, [[1]], false⟩, ⟨"/b/x", 9, [[2]], false⟩]
      (by decide)⟩

/-- Two distinct surviving records of one run that are still connected
within their size bucket among the survivors can only both have survived
through the keep-directory rule: the keep-directory is configured and each
of them lies inside it.  (Under the depth rule their common group kept
exactly one path.) -/
theorem survivor_pair {files : List FRecord} {kd : Option String}
    (hnd : (files.map FRecord.path).Nodup) {f h : FRecord} {s : Nat}
    (hf : f ∈ survivorsFS files kd) (hh : h ∈ survivorsFS files kd)
    (hfh : f ≠ h)
    (hconn : ConnR
      ((survivorsFS files kd).filter (fun r => decide (r.size = s))) f h) :
    ∃ kdv, kd = some kdv ∧ is_in_directory f.path kdv = true := by
  have hndB : ((files.filter (fun r => decide (r.size = s))).map
      FRecord.path).Nodup :=
    (List.Sublist.map FRecord.path (List.filter_sublist files)).nodup hnd
  have hBsub : ∀ x ∈ (survivorsFS files kd).filter
      (fun r => decide (r.size = s)),
      x ∈ files.filter (fun r => decide (r.size = s)) := by
    intro x hx
    have h1 := List.mem_filter.mp hx
    have h2 := List.mem_filter.mp h1.1
    exact List.mem_filter.mpr ⟨h2.1, h1.2⟩
  have hconnB : ConnR (files.filter (fun r => decide (r.size = s))) f h := by
    refine Join.mono ?_ hconn
    intro u v huv
    exact Join.base ⟨hBsub u huv.1, hBsub v huv.2.1, huv.2.2.1, huv.2.2.2⟩
  rcases connR_to_idx hndB hconnB with heq | ⟨i, j, hi, hj, hia, hjb, hjoin⟩
  · exact absurd heq hfh
  · have hij : i ≠ j := by
      intro hc
      apply hfh
      rw [← hia, hc, hjb]
    have hsr := (bucketUF_iff
      (matchIdx_symm (files.filter (fun r => decide (r.size = s)))) i j).mpr hjoin
    have hemit := processBucket_emits hi hj hij hsr
    have hfB : f ∈ files.filter (fun r => decide (r.size = s)) := by
      rw [← hia,
        List.getD_eq_getElem (files.filter (fun r => decide (r.size = s)))
          dfltRec hi]
      exact List.getElem_mem hi
    have hhB : h ∈ files.filter (fun r => decide (r.size = s)) := by
      rw [← hjb,
        List.getD_eq_getElem (files.filter (fun r => decide (r.size = s)))
          dfltRec hj]
      exact List.getElem_mem hj
    have hffiles : f ∈ files := (List.mem_filter.mp hfB).1
    have hhfiles : h ∈ files := (List.mem_filter.mp hhB).1
    have hfsize : f.size = s := of_decide_eq_true (List.mem_filter.mp hfB).2
    have hlen : ¬ (files.filter (fun r => decide (r.size = s))).length < 2 := by
      omega
    have hGfd : classList (files.filter (fun r => decide (r.size = s)))
        (bucketRoot (files.filter (fun r => decide (r.size = s))) i) ∈
        find_duplicates files :=
      mem_find_duplicates.mpr ⟨s, mem_sizeKeys.mpr ⟨f, hffiles, hfsize⟩,
        hlen, hemit⟩
    have hfG : f.path ∈ classList (files.filter (fun r => decide (r.size = s)))
        (bucketRoot (files.filter (fun r => decide (r.size = s))) i) :=
      mem_classList.mpr ⟨i, hi, rfl, by rw [hia]⟩
    have hhG : h.path ∈ classList (files.filter (fun r => decide (r.size = s)))
        (bucketRoot (files.filter (fun r => decide (r.size = s))) i) :=
      mem_classList.mpr ⟨j, hj,
        (bucketRoot_eq_iff hj hi).mpr (sameRoot_symm hsr), by rw [hjb]⟩
    have hfnm : f.path ∉ handle_one kd
        (classList (files.filter (fun r => decide (r.size = s)))
          (bucketRoot (files.filter (fun r => decide (r.size = s))) i)) := by
      intro hcontra
      have h1 := (List.mem_filter.mp hf).2
      have h2 : (allDiscards files kd).contains f.path = true :=
        List.elem_iff.mpr (List.mem_flatMap.mpr ⟨_, hGfd, hcontra⟩)
      rw [h2] at h1
      cases h1
    have hhnm : h.path ∉ handle_one kd
        (classList (files.filter (fun r => decide (r.size = s)))
          (bucketRoot (files.filter (fun r => decide (r.size = s))) i)) := by
      intro hcontra
      have h1 := (List.mem_filter.mp hh).2
      have h2 : (allDiscards files kd).contains h.path = true :=
        List.elem_iff.mpr (List.mem_flatMap.mpr ⟨_, hGfd, hcontra⟩)
      rw [h2] at h1
      cases h1
    cases kd with
    | none =>
        obtain ⟨keep, hkeep⟩ := maxByDepth_isSome (List.ne_nil_of_mem hfG)
        have e1 := handle_one_none_survivor hkeep hfG hfnm
        have e2 := handle_one_none_survivor hkeep hhG hhnm
        exact absurd (rec_eq_of_path_eq hnd hffiles hhfiles
          (e1.trans e2.symm)) hfh
    | some kdv =>
        by_cases hemp : ((classList
            (files.filter (fun r => decide (r.size = s)))
            (bucketRoot (files.filter (fun r => decide (r.size = s))) i)).filter
            (fun x => is_in_directory x kdv)).isEmpty
        · obtain ⟨keep, hkeep⟩ := maxByDepth_isSome (List.ne_nil_of_mem hfG)
          have e1 := handle_one_some_empty_survivor hemp hkeep hfG hfnm
          have e2 := handle_one_some_empty_survivor hemp hkeep hhG hhnm
          exact absurd (rec_eq_of_path_eq hnd hffiles hhfiles
            (e1.trans e2.symm)) hfh
        · exact ⟨kdv, rfl, handle_one_some_survivor hemp hfG hfnm⟩

/-- C7: the pipeline is idempotent with respect to disposal.  If every
discard of a run is successfully moved to trash (leaving exactly the
surviving records) and the pipeline is run again on the resulting tree, the
retention policy of the second run marks no file at all for disposal. -/
theorem C7_pipeline_idempotent (files : List FRecord) (kd : Option String)
    (hnd : (files.map FRecord.path).Nodup) :
    allDiscards (survivorsFS files kd) kd = [] := by
  have hnd' : ((survivorsFS files kd).map FRecord.path).Nodup :=
    (List.Sublist.map FRecord.path (List.filter_sublist files)).nodup hnd
  rw [allDiscards, List.flatMap_eq_nil_iff]
  intro g hg
  obtain ⟨s, hs, hlen, hpb⟩ := mem_find_duplicates.mp hg
  have hndB' : (((survivorsFS files kd).filter
      (fun r => decide (r.size = s))).map FRecord.path).Nodup :=
    (List.Sublist.map FRecord.path (List.filter_sublist _)).nodup hnd'
  obtain ⟨hglen, r, hgr⟩ := processBucket_mem hpb
  subst hgr
  have hmem_pair : ∀ str ∈ classList
      ((survivorsFS files kd).filter (fun r => decide (r.size = s))) r,
      ∃ kdv, kd = some kdv ∧ is_in_directory str kdv = true := by
    intro str hstr
    have hgnodup := classList_nodup hndB' r
    obtain ⟨str2, hstr2, hne2⟩ := exists_ne_mem hgnodup hglen str
    obtain ⟨i, hi, hrooti, hpathi⟩ := mem_classList.mp hstr
    obtain ⟨j, hj, hrootj, hpathj⟩ := mem_classList.mp hstr2
    have hij : i ≠ j := by
      intro hc
      subst hc
      rw [hpathi] at hpathj
      exact hne2 hpathj.symm
    have hsr : SameRoot (bucketUF
        ((survivorsFS files kd).filter (fun r => decide (r.size = s))).length
        (matchIdx ((survivorsFS files kd).filter
          (fun r => decide (r.size = s))))) i j :=
      (bucketRoot_eq_iff hi hj).mp (hrooti.trans hrootj.symm)
    have hjoin := (bucketUF_iff (matchIdx_symm _) i j).mp hsr
    have hconn := connIdx_to_rec hndB' hjoin
    have hfB' : ((survivorsFS files kd).filter
        (fun r => decide (r.size = s))).getD i dfltRec ∈
        (survivorsFS files kd).filter (fun r => decide (r.size = s)) := by
      rw [List.getD_eq_getElem _ dfltRec hi]
      exact List.getElem_mem hi
    have hhB' : ((survivorsFS files kd).filter
        (fun r => decide (r.size = s))).getD j dfltRec ∈
        (survivorsFS files kd).filter (fun r => decide (r.size = s)) := by
      rw [List.getD_eq_getElem _ dfltRec hj]
      exact List.getElem_mem hj
    have hf' := (List.mem_filter.mp hfB').1
    have hh' := (List.mem_filter.mp hhB').1
    have hfh : ((survivorsFS files kd).filter
        (fun r => decide (r.size = s))).getD i dfltRec ≠
        ((survivorsFS files kd).filter (fun r => decide (r.size = s))).getD j
          dfltRec :=
      fun hc => path_ne_of_nodup hndB' hi hj hij (congrArg FRecord.path hc)
    obtain ⟨kdv, hkd, hdir⟩ := survivor_pair hnd hf' hh' hfh hconn
    refine ⟨kdv, hkd, ?_⟩
    rw [← hpathi]
    exact hdir
  cases kd with
  | none =>
      exfalso
      have hpos : 0 < (classList
          ((survivorsFS files none).filter (fun r => decide (r.size = s)))
          r).length := by omega
      obtain ⟨str, hstr⟩ := List.exists_mem_of_length_pos hpos
      obtain ⟨kdv, hkd, _⟩ := hmem_pair str hstr
      cases hkd
  | some kdv =>
      apply handle_one_all_immune
      · intro hc
        rw [hc] at hglen
        simp at hglen
      · intro f hf
        obtain ⟨kdv', hkd', hdir⟩ := hmem_pair f hf
        have heq : kdv = kdv' := Option.some_inj.mp hkd'
        rw [heq]
        exact hdir

theorem C7_witness :
    ((List.map FRecord.path
      [⟨"/a/x", 1, [[7]], false⟩, ⟨"/a/b/x", 1, [[7]], false⟩]).Nodup) ∧
    allDiscards
      (survivorsFS
        [⟨"/a/x", 1, [[7]], false⟩, ⟨"/a/b/x", 1, [[7]], false⟩] none)
      none = [] :=
  ⟨by decide,
    C7_pipeline_idempotent
      [⟨"/a/x", 1, [[7]], false⟩, ⟨"/a/b/x", 1, [[7]], false⟩] none
      (by decide)⟩

end DupSpec
